import Mathlib

/-!
Verification of the symbol-extraction core of the amiga-assembly analysis
engine: `SymbolFile.readDocument` (src/documentation.ts) and the
local-label completion logic (src/completion.ts), shallowly embedded in
Lean 4.

Parsed lines (`ASMLine` from parser.ts, whose source is not part of the
analysed tree) are modelled as abstract records carrying exactly the
fields `readDocument` reads: label, instruction, mnemonic, data, variable,
value, their ranges, and the two symbol-scan results.  `readDocument`
itself is translated statement by statement; JavaScript-specific behaviour
(`indexOf`, `replace` of the first occurrence, `undefined + string`
coercion, object identity in `Array.indexOf`) is made explicit.
-/

namespace AmigaAsm

/-! ## String helpers (JavaScript semantics made explicit) -/

/-- JS `s.indexOf(sub) === 0`, i.e. `sub` occurs at the start of `s`. -/
def strStarts (s sub : String) : Bool := sub.data.isPrefixOf s.data

/-- `sub` occurs as a contiguous run inside `l`. -/
def listInfix (sub : List Char) : List Char → Bool
  | [] => sub.isPrefixOf []
  | c :: cs => sub.isPrefixOf (c :: cs) || listInfix sub cs

/-- JS `s.indexOf(sub) >= 0`, i.e. `sub` occurs somewhere inside `s`. -/
def strContains (s sub : String) : Bool := listInfix sub.data s.data

/-- JS `s.toLowerCase()` on the ASCII instruction mnemonics the analysis
compares against (character-wise lowering). -/
def strLower (s : String) : String := ⟨s.data.map Char.toLower⟩

/-- Remove the first `:` character, if any: JS `s.replace(":", "")`
(string-pattern `replace` substitutes only the first occurrence). -/
def removeFirstColonAux : List Char → List Char
  | [] => []
  | c :: cs => if c = ':' then cs else c :: removeFirstColonAux cs

def removeFirstColon (s : String) : String := ⟨removeFirstColonAux s.data⟩

/-- Remove every `"` character: JS `s.replace(/"/g, '')`. -/
def removeQuotes (s : String) : String := ⟨s.data.filter (fun c => c ≠ '"')⟩

/-- JS `label.indexOf(".") === 0`: the (colon-stripped) label text starts
with a dot, marking a local label. -/
def isLocalText (s : String) : Bool :=
  match s.data with
  | [] => false
  | c :: _ => c = '.'

/-! ## Positions and ranges (vscode `Position` / `Range`) -/

structure Pos where
  line : Nat
  character : Nat
deriving DecidableEq, Repr

/-- Lexicographic `isBeforeOrEqual` on positions. -/
def Pos.le (a b : Pos) : Bool :=
  a.line < b.line || (a.line = b.line && a.character ≤ b.character)

def Pos.minP (a b : Pos) : Pos := if Pos.le a b then a else b

def Pos.maxP (a b : Pos) : Pos := if Pos.le a b then b else a

/-- vscode `Range`: a start and an end position.  The source field `end`
is a Lean keyword, so it is called `stop` here. -/
structure Range where
  start : Pos
  stop : Pos
deriving DecidableEq, Repr

/-- vscode `Range.union`: smallest range containing both. -/
def Range.union (a b : Range) : Range :=
  ⟨Pos.minP a.start b.start, Pos.maxP a.stop b.stop⟩

/-- vscode `Range.contains(range)`: `a` includes `b`. -/
def Range.containsRange (a b : Range) : Bool :=
  Pos.le a.start b.start && Pos.le b.stop a.stop

/-! ## Symbols

The source `Symbol` carries `label`, owning file, `range`, optional
`value` and `parent` (initialised to `label` by the constructor).  The
owning file is the single `SymbolFile` being built and is omitted.  The
extra field `id` records the line index the symbol was created at; since
`readDocument` creates at most one label symbol per line, `id` equality
models JavaScript reference identity, which `Array.indexOf` uses on
`labelsBeforeRts`. -/

structure Symbol where
  label : String
  range : Range
  value : Option String
  parent : String
  id : Nat
deriving DecidableEq, Repr

/-- `new Symbol(label, this, range, value?)`: `parent` starts as `label`. -/
def Symbol.mk' (label : String) (range : Range) (value : Option String)
    (id : Nat) : Symbol :=
  { label := label, range := range, value := value, parent := label, id := id }

/-- Reference-identity membership (`Array.indexOf(l) >= 0` on objects). -/
def memId (l : List Symbol) (i : Nat) : Bool := l.any (fun s => s.id = i)

/-! ## Parsed lines

Abstract model of the `ASMLine` fields consumed by `readDocument` and by
the completion provider.  The parser class itself (parser.ts) is not in
the analysed sources, so these fields are free inputs. -/

structure AsmLine where
  label : String
  labelRange : Range
  instruction : String
  mnemonic : String
  mnemonicRange : Range
  data : String
  dataRange : Range
  /-- the `variable` field of `ASMLine` (`variable` is a Lean keyword) -/
  variableText : String
  variableRange : Range
  value : Option String
  /-- result of `asmLine.getSymbolFromLabelOrVariable()` -/
  symbolFromLabelOrVariable : Option (String × Range)
  /-- results of `asmLine.getSymbolFromData()` -/
  symbolsFromData : List (String × Range)
deriving DecidableEq, Repr

/-- A line with only a label, as produced for a source line `LAB:`. -/
def mkLabelLine (lab : String) (r : Range) : AsmLine :=
  { label := lab, labelRange := r, instruction := "", mnemonic := "",
    mnemonicRange := r, data := "", dataRange := r, variableText := "",
    variableRange := r, value := none, symbolFromLabelOrVariable := none,
    symbolsFromData := [] }

/-- A label-less line with an instruction and a data field. -/
def mkInstrLine (instr dat : String) (r : Range) : AsmLine :=
  { label := "", labelRange := r, instruction := instr, mnemonic := instr,
    mnemonicRange := r, data := dat, dataRange := r, variableText := "",
    variableRange := r, value := none, symbolFromLabelOrVariable := none,
    symbolsFromData := [] }

/-! ## SymbolFile state -/

structure SymbolFile where
  definedSymbols : List Symbol
  referredSymbols : List Symbol
  variablesList : List Symbol
  labels : List Symbol
  macros : List Symbol
  subroutines : List String
  dcLabel : List Symbol
  includeDir : String
  includedFiles : List Symbol
deriving DecidableEq, Repr

/-- `SymbolFile.clear()`: every accumulated field is reset. -/
def SymbolFile.clear (_sf : SymbolFile) : SymbolFile :=
  { definedSymbols := [], referredSymbols := [], variablesList := [],
    labels := [], macros := [], subroutines := [], dcLabel := [],
    includeDir := "", includedFiles := [] }

def emptySymbolFile : SymbolFile := SymbolFile.clear
  { definedSymbols := [], referredSymbols := [], variablesList := [],
    labels := [], macros := [], subroutines := [], dcLabel := [],
    includeDir := "", includedFiles := [] }

/-- Loop-carried state of the first pass of `readDocument`: the file being
populated, the running `lastLabel`, and the `labelsBeforeRts` array. -/
structure ReadState where
  sf : SymbolFile
  lastLabel : Option Symbol
  beforeRts : List Symbol
deriving DecidableEq, Repr

/-- JS `lastLabel?.getLabel() + label` — when `lastLabel` is `null` the
concatenation coerces `undefined` to the string `"undefined"`. -/
def composedLabel (lastLabel : Option Symbol) (loc : String) : String :=
  (match lastLabel with
   | some s => s.label
   | none => "undefined") ++ loc

/-- First block of the loop body: `getSymbolFromLabelOrVariable`, else the
`getSymbolFromData` scan plus the mnemonic, populate `definedSymbols` /
`referredSymbols`. -/
def symbolsStep (i : Nat) (line : AsmLine) (sf : SymbolFile) : SymbolFile :=
  match line.symbolFromLabelOrVariable with
  | some (sym, r) =>
      { sf with definedSymbols :=
          sf.definedSymbols ++ [ Symbol.mk' sym r none i] }
  | none =>
      let refs := line.symbolsFromData.map
        (fun p => Symbol.mk' p.1 p.2 none i)
      let sf := { sf with referredSymbols := sf.referredSymbols ++ refs }
      if line.mnemonic ≠ "" then
        { sf with referredSymbols := sf.referredSymbols ++
            [ Symbol.mk' line.mnemonic line.mnemonicRange none i] }
      else sf

/-- Second block: label / macro classification and the `lastLabel`
update (`if (asmLine.label.length > 0) ... else if instruct macro ...`). -/
def labelStep (i : Nat) (line : AsmLine) (lastLabel : Option Symbol)
    (sf : SymbolFile) : SymbolFile × Option Symbol :=
  let instruct := strLower line.instruction
  if line.label.length > 0 then
    let lab0 := removeFirstColon line.label
    let isLocal := isLocalText lab0
    let lab := if isLocal then composedLabel lastLabel lab0 else lab0
    let s := Symbol.mk' lab line.labelRange none i
    if strStarts instruct "macro" then
      ({ sf with macros := sf.macros ++ [s] }, lastLabel)
    else
      ({ sf with labels := sf.labels ++ [s] },
       if isLocal then lastLabel else some s)
  else if strStarts instruct "macro" then
    ({ sf with macros :=
        sf.macros ++ [ Symbol.mk' line.data line.dataRange none i] },
     lastLabel)
  else (sf, lastLabel)

/-- Third block: `if (asmLine.variable.length > 0)`. -/
def variableStep (i : Nat) (line : AsmLine) (sf : SymbolFile) : SymbolFile :=
  if line.variableText.length > 0 then
    { sf with variablesList := sf.variablesList ++
        [ Symbol.mk' line.variableText line.variableRange line.value i] }
  else sf

/-- Fourth block: the `bsr` / `dc`,`ds`,`incbin` / `rts` / `incdir` /
`include` else-if chain, reading the already-updated `lastLabel`. -/
def directiveStep (i : Nat) (line : AsmLine) (lastLabel : Option Symbol)
    (sf : SymbolFile) (beforeRts : List Symbol) :
    SymbolFile × List Symbol :=
  let instruct := strLower line.instruction
  if strContains instruct "bsr" then
    ({ sf with subroutines := sf.subroutines ++ [line.data] }, beforeRts)
  else if strStarts instruct "dc" || strStarts instruct "ds"
      || strStarts instruct "incbin" then
    match lastLabel with
    | some ll => ({ sf with dcLabel := sf.dcLabel ++ [ll] }, beforeRts)
    | none => (sf, beforeRts)
  else if strContains instruct "rts" then
    match lastLabel with
    | some ll => (sf, beforeRts ++ [ll])
    | none => (sf, beforeRts)
  else if instruct = "incdir" then
    ({ sf with includeDir := removeQuotes line.data }, beforeRts)
  else if instruct = "include" then
    let inc := Symbol.mk' (removeQuotes line.data) line.dataRange none i
    ({ sf with includedFiles := sf.includedFiles ++ [inc],
               definedSymbols := sf.definedSymbols ++ [inc] }, beforeRts)
  else (sf, beforeRts)

/-- The body of the first `for` loop of `readDocument`, for the line with
index `i`, translated block by block. -/
def processLine (i : Nat) (line : AsmLine) (st : ReadState) : ReadState :=
  let sf1 := symbolsStep i line st.sf
  let ls := labelStep i line st.lastLabel sf1
  let sf3 := variableStep i line ls.1
  let ds := directiveStep i line ls.2 sf3 st.beforeRts
  ⟨ds.1, ls.2, ds.2⟩

/-- The first pass of `readDocument`, over the remaining lines, `i` being
the index of the first of them. -/
def readLoop : List AsmLine → Nat → ReadState → ReadState
  | [], _, st => st
  | line :: rest, i, st => readLoop rest (i + 1) (processLine i line st)

/-- State after the first pass over the whole document, starting from the
cleared file (`readDocument` calls `clear()` first). -/
def pass1 (doc : List AsmLine) : ReadState :=
  readLoop doc 0 ⟨emptySymbolFile, none, []⟩

/-- State after the first pass over the first `i` lines only. -/
def readStateAt (doc : List AsmLine) (i : Nat) : ReadState :=
  readLoop (doc.take i) 0 ⟨emptySymbolFile, none, []⟩

/-! ## Derived predicates over parsed lines -/

/-- The lowered instruction starts with `macro`
(`instruct.indexOf("macro") === 0`). -/
def macroInstr (line : AsmLine) : Bool :=
  strStarts (strLower line.instruction) "macro"

/-- The line's colon-stripped label text is a local label. -/
def localLabelLine (line : AsmLine) : Bool :=
  decide (0 < line.label.length) && isLocalText (removeFirstColon line.label)

/-- The line pushes a global (non-local, non-macro) label symbol and
updates `lastLabel`. -/
def createsGlobal (line : AsmLine) : Bool :=
  decide (0 < line.label.length)
    && !isLocalText (removeFirstColon line.label) && !macroInstr line

/-- The label symbol a global-label line at index `i` creates. -/
def globalSymbolOf (i : Nat) (line : AsmLine) : Symbol :=
  Symbol.mk' (removeFirstColon line.label) line.labelRange none i

/-- The global label symbol created by line `j` of `doc`, if any. -/
def globalCreationAt (doc : List AsmLine) (j : Nat) : Option Symbol :=
  match doc.get? j with
  | some line =>
      if createsGlobal line then some (globalSymbolOf j line) else none
  | none => none

/-- The most recent global label created before line `i`: the value
`lastLabel` holds when line `i` is processed. -/
def lastGlobalBefore (doc : List AsmLine) : Nat → Option Symbol
  | 0 => none
  | j + 1 =>
    match globalCreationAt doc j with
    | some s => some s
    | none => lastGlobalBefore doc j

/-- The line takes the `bsr` branch of the else-if chain. -/
def bsrHit (line : AsmLine) : Bool :=
  strContains (strLower line.instruction) "bsr"

/-- The lowered instruction starts with `dc`, `ds` or `incbin`. -/
def dataInstr (line : AsmLine) : Bool :=
  strStarts (strLower line.instruction) "dc"
    || strStarts (strLower line.instruction) "ds"
    || strStarts (strLower line.instruction) "incbin"

/-- The line takes the data/storage/incbin branch of the chain. -/
def dcHit (line : AsmLine) : Bool := !bsrHit line && dataInstr line

/-- The line takes the `rts` branch of the chain. -/
def rtsHit (line : AsmLine) : Bool :=
  !bsrHit line && !dataInstr line
    && strContains (strLower line.instruction) "rts"

/-- The line takes the `incdir` branch of the chain. -/
def incdirHit (line : AsmLine) : Bool :=
  !bsrHit line && !dataInstr line
    && !strContains (strLower line.instruction) "rts"
    && decide (strLower line.instruction = "incdir")

/-- The line takes the `include` branch of the chain. -/
def includeHit (line : AsmLine) : Bool :=
  !bsrHit line && !dataInstr line
    && !strContains (strLower line.instruction) "rts"
    && !decide (strLower line.instruction = "incdir")
    && decide (strLower line.instruction = "include")

/-! ## Subroutine boundary inference (second loop of `readDocument`)

The source iterates over `this.labels` and mutates the `Symbol` objects
in place (`setParent` on the current label, `setRange` on the current
parent, an alias of an earlier array element).  The array is therefore
threaded explicitly and the parent is addressed by its index;
`labelsBeforeRts.indexOf(l)` compares object references, modelled by
`memId`. -/

/-- One iteration of the boundary-inference loop at index `i`. -/
def subStep (subs : List String) (beforeRts : List Symbol) (i : Nat)
    (arr : List Symbol) (inSub : Bool) (parentIdx : Option Nat) :
    List Symbol × Bool × Option Nat :=
  match arr.get? i with
  | none => (arr, inSub, parentIdx)
  | some l =>
    let step : List Symbol × Bool × Option Nat :=
      if subs.contains l.label then (arr, true, some i)
      else if inSub then
        match parentIdx with
        | some p =>
          match arr.get? p with
          | some par =>
            -- l.setParent(lastParent.getLabel())
            let arr1 := arr.set i { l with parent := par.label }
            -- lastParent.setRange(lastParent.getRange().union(l.getRange()));
            -- re-read through the array to model the object aliasing
            -- (both indices are in bounds whenever this branch runs)
            let par1 := arr1.getD p par
            let l1 := arr1.getD i l
            (arr1.set p { par1 with range := par1.range.union l1.range },
             inSub, parentIdx)
          | none => (arr, inSub, parentIdx)
        | none => (arr, inSub, parentIdx)
      else (arr, inSub, parentIdx)
    -- if (labelsBeforeRts.indexOf(l) >= 0) { inSub = false; }
    (step.1, if memId beforeRts l.id then false else step.2.1, step.2.2)

/-- The boundary-inference loop from index `i` on.  The first `Nat` is
fuel bounding the number of remaining iterations; since `subStep`
preserves the array length, running with fuel `arr.length` from index `0`
performs exactly the source's `for (const l of this.labels)` loop. -/
def subLoop (subs : List String) (beforeRts : List Symbol) :
    Nat → Nat → List Symbol → Bool → Option Nat → List Symbol
  | 0, _, arr, _, _ => arr
  | fuel + 1, i, arr, inSub, parentIdx =>
    match arr.get? i with
    | none => arr
    | some _ =>
      let st := subStep subs beforeRts i arr inSub parentIdx
      subLoop subs beforeRts fuel (i + 1) st.1 st.2.1 st.2.2

/-- The final value, after the boundary loop, of a `Symbol` object created
in the first pass: the slot of `finalLabels` carrying the same identity,
if any (in the source, `dcLabel` holds references to the very objects the
boundary loop mutates through `this.labels`). -/
def resolveById (finalLabels : List Symbol) (s : Symbol) : Symbol :=
  match finalLabels.find? (fun t => t.id = s.id) with
  | some t => t
  | none => s

/-- `SymbolFile.readDocument`: clear all state, run the per-line pass,
then the boundary-inference pass over `labels`.  `dcLabel` aliases label
objects, so its entries reflect the boundary pass's mutations. -/
def readDocument (sf : SymbolFile) (doc : List AsmLine) : SymbolFile :=
  let st := readLoop doc 0 ⟨sf.clear, none, []⟩
  let finalLabels :=
    subLoop st.sf.subroutines st.beforeRts st.sf.labels.length 0
      st.sf.labels false none
  { st.sf with labels := finalLabels,
               dcLabel := st.sf.dcLabel.map (resolveById finalLabels) }

/-! ## Further derived symbol constructors -/

/-- The symbol a labelled, non-macro-classified line pushes into `labels`
(and a macro-classified labelled line into `macros`): local labels are
composed with `lastLabel` at creation time. -/
def labelSymbolOf (last : Option Symbol) (i : Nat) (line : AsmLine) :
    Symbol :=
  let lab0 := removeFirstColon line.label
  Symbol.mk'
    (if isLocalText lab0 then composedLabel last lab0 else lab0)
    line.labelRange none i

/-- The symbol an `include` line registers (quotes removed from the
operand). -/
def incSymbolOf (i : Nat) (line : AsmLine) : Symbol :=
  Symbol.mk' (removeQuotes line.data) line.dataRange none i

/-! ## Completion layer (src/completion.ts)

For a local-label completion the provider extends the word range over the
leading dot and walks up from the cursor line looking for the first line
matching `/^(\w+)\b/`; the matched leading word-character run becomes the
prefix prepended to the typed text before querying
`findLabelStartingWith`. -/

/-- A regex word character (`\w`). -/
def isWordChar (c : Char) : Bool :=
  ('a' ≤ c && c ≤ 'z') || ('A' ≤ c && c ≤ 'Z')
    || ('0' ≤ c && c ≤ '9') || c = '_'

/-- `text.match(/^(\w+)\b/)`: the leading word-character run, when the
line starts with a word character (the `\b` after a maximal `\w+` run is
always satisfied). -/
def leadingWordRun (s : String) : Option String :=
  match s.data with
  | [] => none
  | c :: _ =>
      if isWordChar c then some ⟨s.data.takeWhile isWordChar⟩ else none

/-- The `for (let i = wordRange.start.line; i >= 0; i--)` scan of
`provideCompletionItems`: the first line at or above `i` starting with a
word character contributes its leading word run; otherwise the prefix
stays empty. -/
def labelPrefixFrom (docLines : List String) : Nat → String
  | 0 =>
    match docLines.get? 0 with
    | some t => (leadingWordRun t).getD ""
    | none => ""
  | i + 1 =>
    match docLines.get? (i + 1) with
    | some t =>
        match leadingWordRun t with
        | some w => w
        | none => labelPrefixFrom docLines i
    | none => labelPrefixFrom docLines i

/-- Modelled from the spec: `definitionHandler.findLabelStartingWith`
(src/definitionHandler.ts is not among the analysed sources).  Per §4.5
the resolver returns the label symbols whose stored text starts with the
supplied, already-prefixed search key, case-sensitively. -/
def findLabelStartingWith (sf : SymbolFile) (word : String) : List Symbol :=
  sf.labels.filter (fun s => strStarts s.label word)

/-- Stated from the spec's words, for comparison with `removeQuotes`:
strip one surrounding pair of quotes — a leading `"` and a trailing `"` —
leaving interior characters untouched. -/
def stripSurroundingQuotes (s : String) : String :=
  let l := s.data
  let l1 := if l.head? = some '"' then l.tail else l
  let l2 := if l1.getLast? = some '"' then l1.dropLast else l1
  ⟨l2⟩

/-- The result of the boundary-inference loop of `readDocument` over the
labels of the first pass. -/
def boundaryPass (doc : List AsmLine) : List Symbol :=
  subLoop (pass1 doc).sf.subroutines (pass1 doc).beforeRts
    (pass1 doc).sf.labels.length 0 (pass1 doc).sf.labels false none

/-- The immutable part of a label symbol: the boundary loop rewrites only
`parent` and `range`. -/
def slotSig (s : Symbol) : String × Nat := (s.label, s.id)

/-! ## Concrete documents used as counterexamples and witnesses -/

def rangeAt (n len : Nat) : Range := ⟨⟨n, 0⟩, ⟨n, len⟩⟩

/-- `FOO:` then `.bar`. -/
def cdocLocal : List AsmLine :=
  [mkLabelLine "FOO:" (rangeAt 0 4), mkLabelLine ".bar" (rangeAt 1 4)]

/-- `A:`, ` bsr A`, `B:`, ` bsr B`, `C:` — two nested call targets. -/
def cdocNested : List AsmLine :=
  [mkLabelLine "A:" (rangeAt 0 2), mkInstrLine "bsr" "A" (rangeAt 1 5),
   mkLabelLine "B:" (rangeAt 2 2), mkInstrLine "bsr" "B" (rangeAt 3 5),
   mkLabelLine "C:" (rangeAt 4 2)]

/-- `FOO:`, `.loc`, ` dc.w 1` — a local label between a global label and a
data directive. -/
def cdocDc : List AsmLine :=
  [mkLabelLine "FOO:" (rangeAt 0 4), mkLabelLine ".loc" (rangeAt 1 4),
   mkInstrLine "dc.w" "1" (rangeAt 2 6)]

/-- `SUB:`, ` bsr SUB`, `label2:`, ` rts`. -/
def cdocSub : List AsmLine :=
  [mkLabelLine "SUB:" (rangeAt 0 4), mkInstrLine "bsr" "SUB" (rangeAt 1 7),
   mkLabelLine "label2:" (rangeAt 2 7), mkInstrLine "rts" "" (rangeAt 3 4)]

/-- A single `incdir` line whose operand has an interior quote. -/
def cdocIncdir : List AsmLine :=
  [mkInstrLine "incdir" "a\"b" (rangeAt 0 10)]

/-- `.bar` alone: a local label before any global label. -/
def cdocOrphan : List AsmLine := [mkLabelLine ".bar" (rangeAt 0 4)]

/-- `A:`, ` bsr A`, `B:`, ` bsr B`, `C:`, ` rts` — a nested call target
between a subroutine entry and the label recorded at the return. -/
def cdocNestedRts : List AsmLine :=
  [mkLabelLine "A:" (rangeAt 0 2), mkInstrLine "bsr" "A" (rangeAt 1 5),
   mkLabelLine "B:" (rangeAt 2 2), mkInstrLine "bsr" "B" (rangeAt 3 5),
   mkLabelLine "C:" (rangeAt 4 2), mkInstrLine "rts" "" (rangeAt 5 4)]

/-- `FOO:`, `.bar`, ` rts` — a global label, a local label, a return. -/
def cdocRts : List AsmLine :=
  [mkLabelLine "FOO:" (rangeAt 0 4), mkLabelLine ".bar" (rangeAt 1 4),
   mkInstrLine "rts" "" (rangeAt 2 4)]

/-- ` incdir "dir"` then ` include "file.i"`. -/
def cdocInc : List AsmLine :=
  [mkInstrLine "incdir" "\"dir\"" (rangeAt 0 12),
   mkInstrLine "include" "\"file.i\"" (rangeAt 1 16)]

/-- `MYMAC: macro` — a labelled macro definition. -/
def cmacLine : AsmLine :=
  { mkLabelLine "MYMAC:" (rangeAt 0 6) with instruction := "macro" }

/-- ` macro OTHERMAC` — the alternate name-in-data macro header. -/
def cmacDataLine : AsmLine :=
  { mkInstrLine "macro" "OTHERMAC" (rangeAt 0 15) with data := "OTHERMAC" }

/-! ## Theorems: step lemmas for the first pass -/

/-! ## Step lemmas for the first pass -/

theorem labelStep_snd (i : Nat) (line : AsmLine) (last : Option Symbol)
    (sf : SymbolFile) :
    (labelStep i line last sf).2 =
      if createsGlobal line then some (globalSymbolOf i line) else last := by
  unfold labelStep createsGlobal globalSymbolOf macroInstr
  repeat' split
  all_goals simp_all [apply_ite Prod.snd]
  all_goals (intro hm hl; simp_all)

theorem processLine_lastLabel (i : Nat) (line : AsmLine) (st : ReadState) :
    (processLine i line st).lastLabel =
      if createsGlobal line then some (globalSymbolOf i line)
      else st.lastLabel := by
  unfold processLine
  exact labelStep_snd i line st.lastLabel (symbolsStep i line st.sf)

theorem readLoop_append (a b : List AsmLine) (i : Nat) (st : ReadState) :
    readLoop (a ++ b) i st = readLoop b (i + a.length) (readLoop a i st) := by
  induction a generalizing i st with
  | nil => simp [readLoop]
  | cons x xs ih =>
      have hidx : i + (x :: xs).length = (i + 1) + xs.length := by
        simp only [List.length_cons]; omega
      calc readLoop ((x :: xs) ++ b) i st
          = readLoop (xs ++ b) (i + 1) (processLine i x st) := rfl
        _ = readLoop b ((i + 1) + xs.length)
              (readLoop xs (i + 1) (processLine i x st)) :=
            ih (i + 1) (processLine i x st)
        _ = readLoop b (i + (x :: xs).length) (readLoop (x :: xs) i st) := by
            rw [hidx]; rfl

theorem readStateAt_succ (doc : List AsmLine) (i : Nat) (line : AsmLine)
    (h : doc.get? i = some line) :
    readStateAt doc (i + 1) = processLine i line (readStateAt doc i) := by
  have hlt : i < doc.length := by
    rcases Nat.lt_or_ge i doc.length with hq | hq
    · exact hq
    · rw [List.get?_eq_none.mpr hq] at h; exact absurd h (by simp)
  unfold readStateAt
  have h' : doc[i]? = some line := by
    rw [← List.get?_eq_getElem?]; exact h
  rw [List.take_succ, h']
  rw [readLoop_append]
  simp [readLoop, List.length_take, Nat.min_eq_left (Nat.le_of_lt hlt)]

theorem readStateAt_stop (doc : List AsmLine) (i : Nat)
    (h : doc.length ≤ i) : readStateAt doc i = pass1 doc := by
  unfold readStateAt pass1
  rw [List.take_of_length_le h]

theorem lastGlobalBefore_succ (doc : List AsmLine) (j : Nat) :
    lastGlobalBefore doc (j + 1) =
      match globalCreationAt doc j with
      | some s => some s
      | none => lastGlobalBefore doc j := rfl

/-- The running `lastLabel` is exactly the most recent global label:
local labels and macro-classified labels never update it. -/
theorem lastLabel_eq (doc : List AsmLine) (i : Nat) :
    (readStateAt doc i).lastLabel = lastGlobalBefore doc i := by
  induction i with
  | zero => rfl
  | succ j ih =>
      rw [lastGlobalBefore_succ]
      rcases h : doc.get? j with _ | line
      · have hlen : doc.length ≤ j := List.get?_eq_none.mp h
        have h1 : readStateAt doc (j + 1) = pass1 doc :=
          readStateAt_stop doc (j + 1) (by omega)
        have h2 : readStateAt doc j = pass1 doc := readStateAt_stop doc j hlen
        have hg : globalCreationAt doc j = none := by
          unfold globalCreationAt; rw [h]
        rw [h1, ← h2, ih, hg]
      · have hg : globalCreationAt doc j =
            if createsGlobal line then some (globalSymbolOf j line)
            else none := by
          unfold globalCreationAt; rw [h]
        rw [readStateAt_succ doc j line h, processLine_lastLabel, ih, hg]
        split <;> simp

theorem subStep_length (subs : List String) (beforeRts : List Symbol)
    (i : Nat) (arr : List Symbol) (inSub : Bool) (parentIdx : Option Nat) :
    (subStep subs beforeRts i arr inSub parentIdx).1.length = arr.length := by
  unfold subStep
  repeat' split
  all_goals simp [List.length_set]

/-! ## Field characterisations of the four blocks -/

theorem symbolsStep_fields (i : Nat) (line : AsmLine) (sf : SymbolFile) :
    (symbolsStep i line sf).labels = sf.labels
    ∧ (symbolsStep i line sf).macros = sf.macros
    ∧ (symbolsStep i line sf).variablesList = sf.variablesList
    ∧ (symbolsStep i line sf).subroutines = sf.subroutines
    ∧ (symbolsStep i line sf).dcLabel = sf.dcLabel
    ∧ (symbolsStep i line sf).includeDir = sf.includeDir
    ∧ (symbolsStep i line sf).includedFiles = sf.includedFiles := by
  simp only [symbolsStep]
  refine ⟨?_, ?_, ?_, ?_, ?_, ?_, ?_⟩
  all_goals repeat' split
  all_goals simp

theorem symbolsStep_defined_ext (i : Nat) (line : AsmLine) (sf : SymbolFile) :
    sf.definedSymbols <+: (symbolsStep i line sf).definedSymbols := by
  simp only [symbolsStep]
  repeat' split
  all_goals simp

theorem labelStep_fields (i : Nat) (line : AsmLine) (last : Option Symbol)
    (sf : SymbolFile) :
    (labelStep i line last sf).1.definedSymbols = sf.definedSymbols
    ∧ (labelStep i line last sf).1.referredSymbols = sf.referredSymbols
    ∧ (labelStep i line last sf).1.variablesList = sf.variablesList
    ∧ (labelStep i line last sf).1.subroutines = sf.subroutines
    ∧ (labelStep i line last sf).1.dcLabel = sf.dcLabel
    ∧ (labelStep i line last sf).1.includeDir = sf.includeDir
    ∧ (labelStep i line last sf).1.includedFiles = sf.includedFiles := by
  simp only [labelStep]
  refine ⟨?_, ?_, ?_, ?_, ?_, ?_, ?_⟩
  all_goals repeat' split
  all_goals simp

theorem labelStep_labels (i : Nat) (line : AsmLine) (last : Option Symbol)
    (sf : SymbolFile) :
    (labelStep i line last sf).1.labels =
      if 0 < line.label.length ∧ macroInstr line = false then
        sf.labels ++ [labelSymbolOf last i line]
      else sf.labels := by
  simp only [labelStep, macroInstr, labelSymbolOf]
  repeat' split
  all_goals simp_all

theorem labelStep_macros (i : Nat) (line : AsmLine) (last : Option Symbol)
    (sf : SymbolFile) :
    (labelStep i line last sf).1.macros =
      if 0 < line.label.length ∧ macroInstr line = true then
        sf.macros ++ [labelSymbolOf last i line]
      else if line.label.length = 0 ∧ macroInstr line = true then
        sf.macros ++ [ Symbol.mk' line.data line.dataRange none i]
      else sf.macros := by
  simp only [labelStep, macroInstr, labelSymbolOf]
  repeat' split
  all_goals simp_all

theorem variableStep_fields (i : Nat) (line : AsmLine) (sf : SymbolFile) :
    (variableStep i line sf).definedSymbols = sf.definedSymbols
    ∧ (variableStep i line sf).referredSymbols = sf.referredSymbols
    ∧ (variableStep i line sf).labels = sf.labels
    ∧ (variableStep i line sf).macros = sf.macros
    ∧ (variableStep i line sf).subroutines = sf.subroutines
    ∧ (variableStep i line sf).dcLabel = sf.dcLabel
    ∧ (variableStep i line sf).includeDir = sf.includeDir
    ∧ (variableStep i line sf).includedFiles = sf.includedFiles := by
  simp only [variableStep]
  refine ⟨?_, ?_, ?_, ?_, ?_, ?_, ?_, ?_⟩
  all_goals repeat' split
  all_goals simp

theorem directiveStep_fields (i : Nat) (line : AsmLine)
    (last : Option Symbol) (sf : SymbolFile) (b : List Symbol) :
    (directiveStep i line last sf b).1.labels = sf.labels
    ∧ (directiveStep i line last sf b).1.macros = sf.macros
    ∧ (directiveStep i line last sf b).1.variablesList = sf.variablesList
    ∧ (directiveStep i line last sf b).1.referredSymbols
        = sf.referredSymbols := by
  simp only [directiveStep]
  refine ⟨?_, ?_, ?_, ?_⟩
  all_goals repeat' split
  all_goals simp

theorem directiveStep_subroutines (i : Nat) (line : AsmLine)
    (last : Option Symbol) (sf : SymbolFile) (b : List Symbol) :
    (directiveStep i line last sf b).1.subroutines =
      if bsrHit line then sf.subroutines ++ [line.data]
      else sf.subroutines := by
  simp only [directiveStep, bsrHit]
  repeat' split
  all_goals simp_all

theorem directiveStep_dcLabel (i : Nat) (line : AsmLine)
    (last : Option Symbol) (sf : SymbolFile) (b : List Symbol) :
    (directiveStep i line last sf b).1.dcLabel =
      if dcHit line then sf.dcLabel ++ last.toList else sf.dcLabel := by
  simp only [directiveStep, dcHit, bsrHit, dataInstr]
  repeat' split
  all_goals simp_all

theorem directiveStep_beforeRts (i : Nat) (line : AsmLine)
    (last : Option Symbol) (sf : SymbolFile) (b : List Symbol) :
    (directiveStep i line last sf b).2 =
      if rtsHit line then b ++ last.toList else b := by
  simp only [directiveStep, rtsHit, bsrHit, dataInstr]
  repeat' split
  all_goals simp_all

theorem directiveStep_includeDir (i : Nat) (line : AsmLine)
    (last : Option Symbol) (sf : SymbolFile) (b : List Symbol) :
    (directiveStep i line last sf b).1.includeDir =
      if incdirHit line then removeQuotes line.data
      else sf.includeDir := by
  simp only [directiveStep, incdirHit, bsrHit, dataInstr]
  repeat' split
  all_goals simp_all [(by decide : strContains "incdir" "bsr" = false),
    (by decide : strStarts "incdir" "dc" = false),
    (by decide : strStarts "incdir" "ds" = false),
    (by decide : strStarts "incdir" "incbin" = false),
    (by decide : strContains "incdir" "rts" = false)]

theorem directiveStep_includedFiles (i : Nat) (line : AsmLine)
    (last : Option Symbol) (sf : SymbolFile) (b : List Symbol) :
    (directiveStep i line last sf b).1.includedFiles =
      if includeHit line then sf.includedFiles ++ [incSymbolOf i line]
      else sf.includedFiles := by
  simp only [directiveStep, includeHit, bsrHit, dataInstr, incSymbolOf]
  repeat' split
  all_goals simp_all [(by decide : strContains "include" "bsr" = false),
    (by decide : strStarts "include" "dc" = false),
    (by decide : strStarts "include" "ds" = false),
    (by decide : strStarts "include" "incbin" = false),
    (by decide : strContains "include" "rts" = false),
    (by decide : ("include" : String) ≠ "incdir"),
    (by decide : strContains "incdir" "bsr" = false),
    (by decide : strStarts "incdir" "dc" = false),
    (by decide : strStarts "incdir" "ds" = false),
    (by decide : strStarts "incdir" "incbin" = false),
    (by decide : strContains "incdir" "rts" = false)]

theorem directiveStep_definedSymbols (i : Nat) (line : AsmLine)
    (last : Option Symbol) (sf : SymbolFile) (b : List Symbol) :
    (directiveStep i line last sf b).1.definedSymbols =
      if includeHit line then sf.definedSymbols ++ [incSymbolOf i line]
      else sf.definedSymbols := by
  simp only [directiveStep, includeHit, bsrHit, dataInstr, incSymbolOf]
  repeat' split
  all_goals simp_all [(by decide : strContains "include" "bsr" = false),
    (by decide : strStarts "include" "dc" = false),
    (by decide : strStarts "include" "ds" = false),
    (by decide : strStarts "include" "incbin" = false),
    (by decide : strContains "include" "rts" = false),
    (by decide : ("include" : String) ≠ "incdir"),
    (by decide : strContains "incdir" "bsr" = false),
    (by decide : strStarts "incdir" "dc" = false),
    (by decide : strStarts "incdir" "ds" = false),
    (by decide : strStarts "incdir" "incbin" = false),
    (by decide : strContains "incdir" "rts" = false)]

/-! ## Field characterisations of a whole line step -/

theorem processLine_labels (i : Nat) (line : AsmLine) (st : ReadState) :
    (processLine i line st).sf.labels =
      if 0 < line.label.length ∧ macroInstr line = false then
        st.sf.labels ++ [labelSymbolOf st.lastLabel i line]
      else st.sf.labels := by
  simp only [processLine]
  rw [(directiveStep_fields _ _ _ _ _).1, (variableStep_fields _ _ _).2.2.1,
    labelStep_labels, (symbolsStep_fields _ _ _).1]

theorem processLine_macros (i : Nat) (line : AsmLine) (st : ReadState) :
    (processLine i line st).sf.macros =
      if 0 < line.label.length ∧ macroInstr line = true then
        st.sf.macros ++ [labelSymbolOf st.lastLabel i line]
      else if line.label.length = 0 ∧ macroInstr line = true then
        st.sf.macros ++ [ Symbol.mk' line.data line.dataRange none i]
      else st.sf.macros := by
  simp only [processLine]
  rw [(directiveStep_fields _ _ _ _ _).2.1, (variableStep_fields _ _ _).2.2.2.1,
    labelStep_macros, (symbolsStep_fields _ _ _).2.1]

theorem processLine_subroutines (i : Nat) (line : AsmLine) (st : ReadState) :
    (processLine i line st).sf.subroutines =
      if bsrHit line then st.sf.subroutines ++ [line.data]
      else st.sf.subroutines := by
  simp only [processLine]
  rw [directiveStep_subroutines, (variableStep_fields _ _ _).2.2.2.2.1,
    (labelStep_fields _ _ _ _).2.2.2.1, (symbolsStep_fields _ _ _).2.2.2.1]

theorem processLine_dcLabel (i : Nat) (line : AsmLine) (st : ReadState) :
    (processLine i line st).sf.dcLabel =
      if dcHit line then
        st.sf.dcLabel ++ ((processLine i line st).lastLabel).toList
      else st.sf.dcLabel := by
  simp only [processLine]
  rw [directiveStep_dcLabel, (variableStep_fields _ _ _).2.2.2.2.2.1,
    (labelStep_fields _ _ _ _).2.2.2.2.1, (symbolsStep_fields _ _ _).2.2.2.2.1]

theorem processLine_beforeRts (i : Nat) (line : AsmLine) (st : ReadState) :
    (processLine i line st).beforeRts =
      if rtsHit line then
        st.beforeRts ++ ((processLine i line st).lastLabel).toList
      else st.beforeRts := by
  simp only [processLine]
  rw [directiveStep_beforeRts]

theorem processLine_includeDir (i : Nat) (line : AsmLine) (st : ReadState) :
    (processLine i line st).sf.includeDir =
      if incdirHit line then removeQuotes line.data
      else st.sf.includeDir := by
  simp only [processLine]
  rw [directiveStep_includeDir, (variableStep_fields _ _ _).2.2.2.2.2.2.1,
    (labelStep_fields _ _ _ _).2.2.2.2.2.1, (symbolsStep_fields _ _ _).2.2.2.2.2.1]

theorem processLine_includedFiles (i : Nat) (line : AsmLine)
    (st : ReadState) :
    (processLine i line st).sf.includedFiles =
      if includeHit line then st.sf.includedFiles ++ [incSymbolOf i line]
      else st.sf.includedFiles := by
  simp only [processLine]
  rw [directiveStep_includedFiles, (variableStep_fields _ _ _).2.2.2.2.2.2.2,
    (labelStep_fields _ _ _ _).2.2.2.2.2.2, (symbolsStep_fields _ _ _).2.2.2.2.2.2]

theorem processLine_definedSymbols_ext (i : Nat) (line : AsmLine)
    (st : ReadState) :
    st.sf.definedSymbols <+: (processLine i line st).sf.definedSymbols := by
  simp only [processLine]
  rw [directiveStep_definedSymbols]
  have h1 := symbolsStep_defined_ext i line st.sf
  have h2 := (labelStep_fields i line st.lastLabel (symbolsStep i line st.sf)).1
  have h3 := (variableStep_fields i line
    (labelStep i line st.lastLabel (symbolsStep i line st.sf)).1).1
  rw [h3, h2]
  split
  · exact h1.trans (List.prefix_append _ _)
  · exact h1

/-! ## Monotonicity of the accumulated lists over the first pass -/

theorem processLine_ext (i : Nat) (line : AsmLine) (st : ReadState) :
    st.sf.labels <+: (processLine i line st).sf.labels
    ∧ st.sf.macros <+: (processLine i line st).sf.macros
    ∧ st.sf.includedFiles <+: (processLine i line st).sf.includedFiles
    ∧ st.sf.definedSymbols <+: (processLine i line st).sf.definedSymbols
    ∧ st.beforeRts <+: (processLine i line st).beforeRts := by
  refine ⟨?_, ?_, ?_, processLine_definedSymbols_ext i line st, ?_⟩
  · rw [processLine_labels]; split <;> simp
  · rw [processLine_macros]; repeat' split
    all_goals simp
  · rw [processLine_includedFiles]; split <;> simp
  · rw [processLine_beforeRts]; split <;> simp

theorem readLoop_ext (rest : List AsmLine) (i : Nat) (st : ReadState) :
    st.sf.labels <+: (readLoop rest i st).sf.labels
    ∧ st.sf.macros <+: (readLoop rest i st).sf.macros
    ∧ st.sf.includedFiles <+: (readLoop rest i st).sf.includedFiles
    ∧ st.sf.definedSymbols <+: (readLoop rest i st).sf.definedSymbols
    ∧ st.beforeRts <+: (readLoop rest i st).beforeRts := by
  induction rest generalizing i st with
  | nil => simp [readLoop]
  | cons x xs ih =>
      have h1 := processLine_ext i x st
      have h2 := ih (i + 1) (processLine i x st)
      exact ⟨h1.1.trans h2.1, h1.2.1.trans h2.2.1, h1.2.2.1.trans h2.2.2.1,
        h1.2.2.2.1.trans h2.2.2.2.1, h1.2.2.2.2.trans h2.2.2.2.2⟩

/-! ## Order facts about positions and ranges -/

theorem pos_le_iff (a b : Pos) :
    Pos.le a b = true ↔
      a.line < b.line ∨ (a.line = b.line ∧ a.character ≤ b.character) := by
  simp [Pos.le]

theorem pos_le_trans {a b c : Pos} (h1 : Pos.le a b = true)
    (h2 : Pos.le b c = true) : Pos.le a c = true := by
  rw [pos_le_iff] at *; omega

theorem minP_le_left (a b : Pos) : Pos.le (Pos.minP a b) a = true := by
  unfold Pos.minP
  split
  · rw [pos_le_iff]; omega
  · next h =>
      simp only [pos_le_iff] at h ⊢
      omega

theorem le_maxP_left (a b : Pos) : Pos.le a (Pos.maxP a b) = true := by
  unfold Pos.maxP
  split
  · next h => exact h
  · rw [pos_le_iff]; omega

theorem le_maxP_right (b a : Pos) : Pos.le b (Pos.maxP a b) = true := by
  unfold Pos.maxP
  split
  · rw [pos_le_iff]; omega
  · next h =>
      simp only [pos_le_iff] at h ⊢
      omega

theorem minP_le_right (a b : Pos) : Pos.le (Pos.minP a b) b = true := by
  unfold Pos.minP
  split
  · next h => exact h
  · rw [pos_le_iff]; omega

theorem containsRange_iff (a b : Range) :
    a.containsRange b = true ↔
      Pos.le a.start b.start = true ∧ Pos.le b.stop a.stop = true := by
  simp [Range.containsRange]

theorem containsRange_refl (a : Range) : a.containsRange a = true := by
  rw [containsRange_iff]
  constructor <;> (rw [pos_le_iff]; omega)

theorem containsRange_trans {a b c : Range} (h1 : a.containsRange b = true)
    (h2 : b.containsRange c = true) : a.containsRange c = true := by
  rw [containsRange_iff] at *
  exact ⟨pos_le_trans h1.1 h2.1, pos_le_trans h2.2 h1.2⟩

theorem union_containsRange_left (a b : Range) :
    (a.union b).containsRange a = true := by
  rw [containsRange_iff]
  exact ⟨minP_le_left a.start b.start, le_maxP_left a.stop b.stop⟩

theorem union_containsRange_right (a b : Range) :
    (a.union b).containsRange b = true := by
  rw [containsRange_iff]
  exact ⟨minP_le_right a.start b.start, le_maxP_right b.stop a.stop⟩

/-! ## Per-slot behaviour of the boundary loop -/

theorem get?_lt_length {α : Type} (l : List α) (n : Nat) (a : α)
    (h : l.get? n = some a) : n < l.length := by
  rcases Nat.lt_or_ge n l.length with h1 | h1
  · exact h1
  · rw [List.get?_eq_none.mpr h1] at h; cases h

theorem getD_of_get? (l : List Symbol) (n : Nat) (a d : Symbol)
    (h : l.get? n = some a) : l.getD n d = a := by
  rw [List.getD_eq_getElem?_getD, ← List.get?_eq_getElem?, h]
  rfl

/-- A single in-place write that keeps `label` and `id` and can only grow
the written slot's range preserves every slot up to those relations. -/
theorem set_slot_grow (arr : List Symbol) (n : Nat) (a : Symbol)
    (hgrow : ∀ b, arr.get? n = some b →
      a.label = b.label ∧ a.id = b.id
        ∧ a.range.containsRange b.range = true)
    (k : Nat) (lk : Symbol) (hk : arr.get? k = some lk) :
    ∃ lk', (arr.set n a).get? k = some lk' ∧ lk'.label = lk.label
      ∧ lk'.id = lk.id ∧ lk'.range.containsRange lk.range = true := by
  rcases eq_or_ne n k with rfl | hne
  · obtain ⟨hl, hi, hr⟩ := hgrow lk hk
    exact ⟨a, by rw [List.get?_set_eq_of_lt _ (get?_lt_length _ _ _ hk)],
      hl, hi, hr⟩
  · exact ⟨lk, by rw [List.get?_set_ne _ _ hne]; exact hk, rfl, rfl,
      containsRange_refl _⟩

theorem subStep_slot (subs : List String) (brts : List Symbol) (i : Nat)
    (arr : List Symbol) (inSub : Bool) (pIdx : Option Nat) (k : Nat)
    (lk : Symbol) (hk : arr.get? k = some lk) :
    ∃ lk', (subStep subs brts i arr inSub pIdx).1.get? k = some lk'
      ∧ lk'.label = lk.label ∧ lk'.id = lk.id
      ∧ lk'.range.containsRange lk.range = true := by
  unfold subStep
  rcases h : arr.get? i with _ | l
  · exact ⟨lk, hk, rfl, rfl, containsRange_refl _⟩
  · simp only []
    by_cases h1 : subs.contains l.label
    · simp only [h1, if_true]
      exact ⟨lk, hk, rfl, rfl, containsRange_refl _⟩
    · simp only [h1, if_false]
      by_cases h2 : inSub
      · rcases pIdx with _ | p
        · simp only [h2, if_true]
          exact ⟨lk, hk, rfl, rfl, containsRange_refl _⟩
        · simp only [h2, if_true]
          rcases hp : arr.get? p with _ | par
          · exact ⟨lk, hk, rfl, rfl, containsRange_refl _⟩
          · -- first write: parent at slot i
            obtain ⟨lk1, hk1, he1, hi1, hr1⟩ :=
              set_slot_grow arr i { l with parent := par.label }
                (by intro b hb
                    rw [h] at hb
                    cases hb
                    exact ⟨rfl, rfl, containsRange_refl _⟩)
                k lk hk
            -- second write: widened range at slot p
            obtain ⟨lk2, hk2, he2, hi2, hr2⟩ :=
              set_slot_grow (arr.set i { l with parent := par.label }) p
                { (arr.set i { l with parent := par.label }).getD p par with
                  range :=
                    ((arr.set i { l with parent := par.label }).getD p
                        par).range.union
                      ((arr.set i { l with parent := par.label }).getD i
                        l).range }
                (by intro b hb
                    rw [getD_of_get? _ _ _ _ hb]
                    exact ⟨rfl, rfl, union_containsRange_left _ _⟩)
                k lk1 hk1
            exact ⟨lk2, hk2, he2.trans he1, hi2.trans hi1,
              containsRange_trans hr2 hr1⟩
      · simp only [h2, if_false]
        exact ⟨lk, hk, rfl, rfl, containsRange_refl _⟩

theorem subLoop_slot (subs : List String) (brts : List Symbol) :
    ∀ (fuel m : Nat) (arr : List Symbol) (inSub : Bool) (pIdx : Option Nat)
      (k : Nat) (lk : Symbol), arr.get? k = some lk →
    ∃ lk', (subLoop subs brts fuel m arr inSub pIdx).get? k = some lk'
      ∧ lk'.label = lk.label ∧ lk'.id = lk.id
      ∧ lk'.range.containsRange lk.range = true := by
  intro fuel
  induction fuel with
  | zero => exact fun m arr inSub pIdx k lk hk =>
      ⟨lk, hk, rfl, rfl, containsRange_refl _⟩
  | succ n ih =>
      intro m arr inSub pIdx k lk hk
      unfold subLoop
      rcases h : arr.get? m with _ | l
      · exact ⟨lk, hk, rfl, rfl, containsRange_refl _⟩
      · obtain ⟨lk1, hk1, he1, hi1, hr1⟩ :=
          subStep_slot subs brts m arr inSub pIdx k lk hk
        obtain ⟨lk2, hk2, he2, hi2, hr2⟩ :=
          ih (m + 1) (subStep subs brts m arr inSub pIdx).1
            (subStep subs brts m arr inSub pIdx).2.1
            (subStep subs brts m arr inSub pIdx).2.2 k lk1 hk1
        exact ⟨lk2, hk2, he2.trans he1, hi2.trans hi1,
          containsRange_trans hr2 hr1⟩

theorem subLoop_succ (subs : List String) (brts : List Symbol)
    (fuel m : Nat) (arr : List Symbol) (inSub : Bool) (pIdx : Option Nat)
    (l : Symbol) (hm : arr.get? m = some l) :
    subLoop subs brts (fuel + 1) m arr inSub pIdx =
      subLoop subs brts fuel (m + 1)
        (subStep subs brts m arr inSub pIdx).1
        (subStep subs brts m arr inSub pIdx).2.1
        (subStep subs brts m arr inSub pIdx).2.2 := by
  conv_lhs => rw [subLoop]
  rw [hm]

/-- When the scanned label is a call target, the array is untouched,
tracking turns on (subject to the `labelsBeforeRts` check) and the label
becomes the new parent — whatever the previous parent was. -/
theorem subStep_target (subs : List String) (brts : List Symbol)
    (m : Nat) (arr : List Symbol) (inSub : Bool) (pIdx : Option Nat)
    (l : Symbol) (hm : arr.get? m = some l)
    (hsub : subs.contains l.label = true) :
    subStep subs brts m arr inSub pIdx = (arr, !memId brts l.id, some m) := by
  unfold subStep
  rw [hm]
  simp only [hsub, if_true]
  cases hmem : memId brts l.id <;> simp [hmem]

/-- Inside a subroutine, a non-target label receives the parent's label
and the parent's slot is widened by the union of the two ranges. -/
theorem subStep_inside (subs : List String) (brts : List Symbol)
    (m p : Nat) (arr : List Symbol) (lm sp : Symbol)
    (hm : arr.get? m = some lm)
    (hns : subs.contains lm.label = false)
    (hp : arr.get? p = some sp) (hpm : p ≠ m) :
    subStep subs brts m arr true (some p) =
      ((arr.set m { lm with parent := sp.label }).set p
        { sp with range := sp.range.union lm.range },
       !memId brts lm.id, some p) := by
  have h1 : (arr.set m { lm with parent := sp.label }).get? p = some sp := by
    rw [List.get?_set_ne _ _ (by omega : m ≠ p)]
    exact hp
  have h2 : (arr.set m { lm with parent := sp.label }).get? m =
      some { lm with parent := sp.label } := by
    rw [List.get?_set_eq_of_lt _ (get?_lt_length _ _ _ hm)]
  unfold subStep
  rw [hm]
  simp only [hns, Bool.false_eq_true, if_false, if_true]
  rw [hp]
  dsimp only
  rw [getD_of_get? _ _ _ _ h1, getD_of_get? _ _ _ _ h2]
  cases hmem : memId brts lm.id <;> simp [hmem]

theorem subStep_untouched (subs : List String) (brts : List Symbol)
    (m : Nat) (arr : List Symbol) (inSub : Bool) (pIdx : Option Nat)
    (hinv : ∀ p, pIdx = some p →
      ∃ sp, arr.get? p = some sp ∧ subs.contains sp.label = true)
    (k : Nat) (lk : Symbol) (hk : arr.get? k = some lk)
    (hns : subs.contains lk.label = false) (hkm : k ≠ m) :
    (subStep subs brts m arr inSub pIdx).1.get? k = some lk
    ∧ ∀ p, (subStep subs brts m arr inSub pIdx).2.2 = some p →
        ∃ sp, (subStep subs brts m arr inSub pIdx).1.get? p = some sp
          ∧ subs.contains sp.label = true := by
  rcases hm : arr.get? m with _ | l
  · constructor
    · unfold subStep; rw [hm]; exact hk
    · unfold subStep; rw [hm]; exact hinv
  · by_cases hl : subs.contains l.label
    · rw [subStep_target subs brts m arr inSub pIdx l hm hl]
      refine ⟨hk, ?_⟩
      intro p hp
      cases hp
      exact ⟨l, hm, hl⟩
    · by_cases hin : inSub
      · rcases pIdx with _ | p
        · subst hin
          have heq : subStep subs brts m arr true none =
              (arr, !memId brts l.id, none) := by
            unfold subStep
            rw [hm]
            simp only [hl, Bool.false_eq_true, if_false, if_true]
            cases hmem : memId brts l.id <;> simp [hmem]
          rw [heq]
          exact ⟨hk, by intro p hp; cases hp⟩
        · obtain ⟨sp, hsp, hspl⟩ := hinv p rfl
          have hpm : p ≠ m := by
            intro he
            rw [he, hm] at hsp
            cases hsp
            rw [hspl] at hl
            exact hl rfl
          have hpk : p ≠ k := by
            intro he
            rw [he, hk] at hsp
            cases hsp
            rw [hspl] at hns
            cases hns
          subst hin
          rw [subStep_inside subs brts m p arr l sp hm
            (by simpa using hl) hsp hpm]
          constructor
          · rw [List.get?_set_ne _ _ hpk,
              List.get?_set_ne _ _ (Ne.symm hkm)]
            exact hk
          · intro q hq
            cases hq
            refine ⟨{ sp with range := sp.range.union l.range }, ?_, hspl⟩
            rw [List.get?_set_eq_of_lt]
            rw [List.length_set]
            exact get?_lt_length _ _ _ hsp
      · have hin' : inSub = false := by
          cases inSub
          · rfl
          · exact absurd rfl hin
        subst hin'
        have heq : subStep subs brts m arr false pIdx =
            (arr, false, pIdx) := by
          unfold subStep
          rw [hm]
          dsimp only
          rw [if_neg hl]
          simp
        rw [heq]
        exact ⟨hk, hinv⟩

theorem subLoop_untouched (subs : List String) (brts : List Symbol) :
    ∀ (fuel m : Nat) (arr : List Symbol) (inSub : Bool) (pIdx : Option Nat),
    (∀ p, pIdx = some p →
      ∃ sp, arr.get? p = some sp ∧ subs.contains sp.label = true) →
    ∀ (k : Nat) (lk : Symbol), arr.get? k = some lk →
      subs.contains lk.label = false → k < m →
      (subLoop subs brts fuel m arr inSub pIdx).get? k = some lk := by
  intro fuel
  induction fuel with
  | zero => intro m arr inSub pIdx _ k lk hk _ _; exact hk
  | succ n ih =>
      intro m arr inSub pIdx hinv k lk hk hns hkm
      rcases hm : arr.get? m with _ | l
      · unfold subLoop; rw [hm]; exact hk
      · rw [subLoop_succ subs brts n m arr inSub pIdx l hm]
        obtain ⟨hk', hinv'⟩ := subStep_untouched subs brts m arr inSub pIdx
          hinv k lk hk hns (by omega)
        exact ih (m + 1) _ _ _ hinv' k lk hk' hns (by omega)

/-! ## Relating `readDocument` to the two passes -/

theorem readDocument_labels (sf : SymbolFile) (doc : List AsmLine) :
    (readDocument sf doc).labels = boundaryPass doc := rfl

theorem readDocument_includeDir (sf : SymbolFile) (doc : List AsmLine) :
    (readDocument sf doc).includeDir = (pass1 doc).sf.includeDir := rfl

theorem readDocument_includedFiles (sf : SymbolFile) (doc : List AsmLine) :
    (readDocument sf doc).includedFiles = (pass1 doc).sf.includedFiles := rfl

theorem readDocument_definedSymbols (sf : SymbolFile) (doc : List AsmLine) :
    (readDocument sf doc).definedSymbols
      = (pass1 doc).sf.definedSymbols := rfl

theorem readDocument_macros (sf : SymbolFile) (doc : List AsmLine) :
    (readDocument sf doc).macros = (pass1 doc).sf.macros := rfl

theorem pass1_decompose (doc : List AsmLine) (i : Nat)
    (h : i ≤ doc.length) :
    pass1 doc = readLoop (doc.drop i) i (readStateAt doc i) := by
  have h0 : pass1 doc =
      readLoop (doc.take i ++ doc.drop i) 0 ⟨emptySymbolFile, none, []⟩ := by
    rw [List.take_append_drop]
    rfl
  rw [h0, readLoop_append]
  rw [List.length_take, Nat.min_eq_left h]
  simp only [Nat.zero_add]
  rfl

/-! ## The boundary loop inside a subroutine -/

/-- Once tracking is on with parent slot `i` (whose label is `L`), every
further label up to `j` is assigned parent `L` and folded into slot `i`'s
range, provided no label in `(i, j]` is a call target and no label in
`[m, j)` was recorded before an `rts`. -/
theorem subLoop_inside (subs : List String) (brts : List Symbol)
    (i j : Nat) (L : String) (lj : Symbol)
    (hLsubs : subs.contains L = true) :
    ∀ (fuel m : Nat) (arr : List Symbol),
      i < m → m ≤ j →
      arr.length ≤ m + fuel →
      (∃ li', arr.get? i = some li' ∧ li'.label = L) →
      arr.get? j = some lj →
      (∀ k lk, m ≤ k → k ≤ j → arr.get? k = some lk →
        subs.contains lk.label = false) →
      (∀ k lk, m ≤ k → k < j → arr.get? k = some lk →
        memId brts lk.id = false) →
      ∃ li'' lj',
        (subLoop subs brts fuel m arr true (some i)).get? i = some li''
        ∧ (subLoop subs brts fuel m arr true (some i)).get? j = some lj'
        ∧ lj' = { lj with parent := L }
        ∧ li''.range.containsRange lj.range = true := by
  intro fuel
  induction fuel with
  | zero =>
      intro m arr him hmj hlen _ hj _ _
      have : j < arr.length := get?_lt_length _ _ _ hj
      omega
  | succ n ih =>
      intro m arr him hmj hlen hi hj hmid hbr
      obtain ⟨li', hgi, hiL⟩ := hi
      have hjlt : j < arr.length := get?_lt_length _ _ _ hj
      have hm : ∃ lm, arr.get? m = some lm := by
        rcases h : arr.get? m with _ | lm
        · have := List.get?_eq_none.mp h; omega
        · exact ⟨lm, rfl⟩
      obtain ⟨lm, hgm⟩ := hm
      have hns : subs.contains lm.label = false :=
        hmid m lm (Nat.le_refl m) hmj hgm
      have hineqm : i ≠ m := by omega
      have hstep := subStep_inside subs brts m i arr lm li' hgm hns hgi hineqm
      have hilt : i < arr.length := get?_lt_length _ _ _ hgi
      have hlen1 : ((arr.set m { lm with parent := li'.label }).set i
          { li' with range := li'.range.union lm.range }).length
            = arr.length := by
        simp [List.length_set]
      have hgi2 : ((arr.set m { lm with parent := li'.label }).set i
          { li' with range := li'.range.union lm.range }).get? i =
            some { li' with range := li'.range.union lm.range } := by
        rw [List.get?_set_eq_of_lt]
        rw [List.length_set]
        exact hilt
      rw [subLoop_succ subs brts n m arr true (some i) lm hgm, hstep]
      rcases Nat.lt_or_ge m j with hmlt | hmge
      · -- m < j: one more ordinary inside step, recurse
        have hmem : memId brts lm.id = false :=
          hbr m lm (Nat.le_refl m) hmlt hgm
        rw [hmem]
        have hgj2 : ((arr.set m { lm with parent := li'.label }).set i
            { li' with range := li'.range.union lm.range }).get? j =
              some lj := by
          rw [List.get?_set_ne _ _ (by omega : i ≠ j),
            List.get?_set_ne _ _ (by omega : m ≠ j)]
          exact hj
        have huntouched : ∀ k, m + 1 ≤ k →
            ((arr.set m { lm with parent := li'.label }).set i
              { li' with range := li'.range.union lm.range }).get? k =
            arr.get? k := by
          intro k hk
          rw [List.get?_set_ne _ _ (by omega : i ≠ k),
            List.get?_set_ne _ _ (by omega : m ≠ k)]
        obtain ⟨li'', lj', h1, h2, h3, h4⟩ :=
          ih (m + 1) _ (by omega) (by omega) (by rw [hlen1]; omega)
            ⟨{ li' with range := li'.range.union lm.range }, hgi2, hiL⟩
            hgj2
            (by intro k lk hk1 hk2 hk3
                exact hmid k lk (by omega) hk2 ((huntouched k hk1) ▸ hk3))
            (by intro k lk hk1 hk2 hk3
                exact hbr k lk (by omega) hk2 ((huntouched k hk1) ▸ hk3))
        exact ⟨li'', lj', h1, h2, h3, h4⟩
      · -- m = j: the step assigns the parent to slot j itself
        have hmj' : m = j := by omega
        subst hmj'
        have hlmj : lm = lj := by
          rw [hgm] at hj; injection hj
        subst hlmj
        set arr2 := (arr.set m { lm with parent := li'.label }).set i
            { li' with range := li'.range.union lm.range } with harr2
        have hgj2 : arr2.get? m = some { lm with parent := li'.label } := by
          rw [harr2, List.get?_set_ne _ _ (by omega : i ≠ m),
            List.get?_set_eq_of_lt _ (get?_lt_length _ _ _ hgm)]
        have hfin_j := subLoop_untouched subs brts n (m + 1) arr2
          (if memId brts lm.id = true then false else true) (some i)
          (by intro p hp
              cases hp
              exact ⟨{ li' with range := li'.range.union lm.range }, hgi2,
                by simpa [hiL] using hLsubs⟩)
          m { lm with parent := li'.label } hgj2
          (by simpa using hns) (by omega)
        obtain ⟨li'', hfi, hfl, hfid, hfr⟩ := subLoop_slot subs brts n (m + 1)
          arr2 (if memId brts lm.id = true then false else true) (some i)
          i { li' with range := li'.range.union lm.range } hgi2
        refine ⟨li'', { lm with parent := li'.label }, ?_, ?_, ?_, ?_⟩
        · cases hmem : memId brts lm.id <;> simp [hmem] at hfi ⊢ <;> exact hfi
        · cases hmem : memId brts lm.id <;> simp [hmem] at hfin_j ⊢ <;>
            exact hfin_j
        · rw [hiL]
        · exact containsRange_trans hfr (union_containsRange_right _ _)

/-- Running the boundary loop from any state at an index `m ≤ i`: once the
call-target label at slot `i` is reached, tracking turns on and the labels
up to `j` are re-parented under it. -/
theorem subLoop_before (subs : List String) (brts : List Symbol)
    (i j : Nat) (L : String) (lj : Symbol)
    (hij : i < j) (hLsubs : subs.contains L = true) :
    ∀ (fuel m : Nat) (arr : List Symbol) (inSub : Bool) (pIdx : Option Nat),
      m ≤ i →
      arr.length ≤ m + fuel →
      (∀ p, pIdx = some p →
        ∃ sp, arr.get? p = some sp ∧ subs.contains sp.label = true) →
      (∃ li', arr.get? i = some li' ∧ li'.label = L) →
      arr.get? j = some lj →
      (∀ k lk, i < k → k ≤ j → arr.get? k = some lk →
        subs.contains lk.label = false) →
      (∀ k lk, i ≤ k → k < j → arr.get? k = some lk →
        memId brts lk.id = false) →
      ∃ li'' lj',
        (subLoop subs brts fuel m arr inSub pIdx).get? i = some li''
        ∧ (subLoop subs brts fuel m arr inSub pIdx).get? j = some lj'
        ∧ lj' = { lj with parent := L }
        ∧ li''.range.containsRange lj.range = true := by
  intro fuel
  induction fuel with
  | zero =>
      intro m arr inSub pIdx him hlen _ _ hj _ _
      have : j < arr.length := get?_lt_length _ _ _ hj
      omega
  | succ n ih =>
      intro m arr inSub pIdx him hlen hinv hi hj hmid hbr
      obtain ⟨li', hgi, hiL⟩ := hi
      have hjlt : j < arr.length := get?_lt_length _ _ _ hj
      have hilt : i < arr.length := get?_lt_length _ _ _ hgi
      have hm : ∃ lm, arr.get? m = some lm := by
        rcases h : arr.get? m with _ | lm
        · have := List.get?_eq_none.mp h; omega
        · exact ⟨lm, rfl⟩
      obtain ⟨lm, hgm⟩ := hm
      rw [subLoop_succ subs brts n m arr inSub pIdx lm hgm]
      rcases Nat.lt_or_ge m i with hmlt | hmge
      · -- m < i: an arbitrary earlier step; the window [i, j] survives it
        obtain ⟨li2, hgi2, hl2, hid2, _⟩ :=
          subStep_slot subs brts m arr inSub pIdx i li' hgi
        have hpres : ∀ k lk, i < k → k ≤ j → arr.get? k = some lk →
            (subStep subs brts m arr inSub pIdx).1.get? k = some lk := by
          intro k lk hk1 hk2 hk3
          exact (subStep_untouched subs brts m arr inSub pIdx hinv k lk hk3
            (hmid k lk hk1 hk2 hk3) (by omega)).1
        have hinv' := (subStep_untouched subs brts m arr inSub pIdx hinv j lj
          hj (hmid j lj hij (Nat.le_refl j) hj) (by omega)).2
        have hlen' : (subStep subs brts m arr inSub pIdx).1.length
            = arr.length := subStep_length subs brts m arr inSub pIdx
        refine ih (m + 1) _ _ _ (by omega) (by rw [hlen']; omega) hinv'
          ⟨li2, hgi2, hl2.trans hiL⟩ (hpres j lj hij (Nat.le_refl j) hj)
          ?_ ?_
        · intro k lk hk1 hk2 hk3
          obtain ⟨lk0, hk0⟩ : ∃ lk0, arr.get? k = some lk0 := by
            rcases h : arr.get? k with _ | lk0
            · have := List.get?_eq_none.mp h; omega
            · exact ⟨lk0, rfl⟩
          rw [hpres k lk0 hk1 hk2 hk0] at hk3
          injection hk3 with he
          subst he
          exact hmid k lk0 hk1 hk2 hk0
        · intro k lk hk1 hk2 hk3
          rcases Nat.eq_or_lt_of_le hk1 with hk1e | hk1lt
          · -- k = i: only the range of the slot can have changed
            subst hk1e
            rw [hgi2] at hk3
            injection hk3 with he
            subst he
            rw [hid2]
            exact hbr i li' (Nat.le_refl i) hij hgi
          · obtain ⟨lk0, hk0⟩ : ∃ lk0, arr.get? k = some lk0 := by
              rcases h : arr.get? k with _ | lk0
              · have := List.get?_eq_none.mp h; omega
              · exact ⟨lk0, rfl⟩
            rw [hpres k lk0 hk1lt (by omega) hk0] at hk3
            injection hk3 with he
            subst he
            exact hbr k lk0 (by omega) hk2 hk0
      · -- m = i: the call-target label turns tracking on
        have hmi : m = i := by omega
        subst hmi
        have hlm : lm = li' := by rw [hgm] at hgi; injection hgi
        subst hlm
        rw [subStep_target subs brts m arr inSub pIdx lm hgm
          (by rw [hiL]; exact hLsubs)]
        rw [hbr m lm (Nat.le_refl m) hij hgm]
        exact subLoop_inside subs brts m j L lj hLsubs n (m + 1) arr
          (by omega) (by omega) (by omega) ⟨lm, hgm, hiL⟩ hj
          (fun k lk hk1 hk2 hk3 => hmid k lk (by omega) hk2 hk3)
          (fun k lk hk1 hk2 hk3 => hbr k lk (by omega) hk2 hk3)

/-! ## Further helper lemmas -/

/-- Shared helper: a local-label, non-macro line pushes exactly the
composed symbol. -/
theorem processLine_local_label (i : Nat) (line : AsmLine) (st : ReadState)
    (hlab : 0 < line.label.length)
    (hloc : isLocalText (removeFirstColon line.label) = true)
    (hmac : macroInstr line = false) :
    (processLine i line st).sf.labels =
      st.sf.labels ++
        [ Symbol.mk'
          (composedLabel st.lastLabel (removeFirstColon line.label))
          line.labelRange none i] := by
  rw [processLine_labels, if_pos ⟨hlab, hmac⟩]
  simp only [labelSymbolOf]
  rw [if_pos hloc]

theorem readLoop_includeDir_stable (rest : List AsmLine) :
    ∀ (j : Nat) (st : ReadState),
      (∀ k line', rest.get? k = some line' → incdirHit line' = false) →
      (readLoop rest j st).sf.includeDir = st.sf.includeDir := by
  induction rest with
  | nil => intro j st _; rfl
  | cons x xs ih =>
      intro j st h
      have hx : incdirHit x = false := h 0 x rfl
      show (readLoop xs (j + 1) (processLine j x st)).sf.includeDir = _
      rw [ih (j + 1) _ (fun k line' hk => h (k + 1) line' hk)]
      rw [processLine_includeDir, if_neg (by simp [hx])]

theorem lastGlobalBefore_creation (doc : List AsmLine) :
    ∀ m s, lastGlobalBefore doc m = some s →
      globalCreationAt doc s.id = some s := by
  intro m
  induction m with
  | zero => intro s h; cases h
  | succ j ih =>
      intro s h
      rw [lastGlobalBefore_succ] at h
      rcases hg : globalCreationAt doc j with _ | t
      · rw [hg] at h; exact ih s h
      · rw [hg] at h
        injection h with he
        subst he
        have hid : t.id = j := by
          unfold globalCreationAt at hg
          rcases hl : doc.get? j with _ | line
          · rw [hl] at hg; cases hg
          · rw [hl] at hg
            dsimp only at hg
            split at hg
            · injection hg with he2
              rw [← he2]
              rfl
            · cases hg
        rw [hid]
        exact hg

theorem beforeRts_recorded (doc : List AsmLine) :
    ∀ i, ∀ s ∈ (readStateAt doc i).beforeRts,
      ∃ j line, doc.get? j = some line ∧ rtsHit line = true
        ∧ (readStateAt doc (j + 1)).lastLabel = some s := by
  intro i
  induction i with
  | zero => intro s hs; exact absurd hs (List.not_mem_nil s)
  | succ j ih =>
      intro s hs
      rcases h : doc.get? j with _ | line
      · have hlen := List.get?_eq_none.mp h
        rw [readStateAt_stop doc (j + 1) (by omega),
          ← readStateAt_stop doc j hlen] at hs
        exact ih s hs
      · rw [readStateAt_succ doc j line h, processLine_beforeRts] at hs
        by_cases hr : rtsHit line = true
        · rw [if_pos hr] at hs
          rcases List.mem_append.mp hs with hold | hnew
          · exact ih s hold
          · refine ⟨j, line, h, hr, ?_⟩
            rw [readStateAt_succ doc j line h]
            rcases hll : (processLine j line (readStateAt doc j)).lastLabel
              with _ | t
            · rw [hll] at hnew; cases hnew
            · rw [hll] at hnew
              simp at hnew
              subst hnew
              rfl
        · rw [if_neg hr] at hs
          exact ih s hs

theorem subLoop_no_subs (brts : List Symbol) :
    ∀ (fuel m : Nat) (arr : List Symbol) (pIdx : Option Nat),
      subLoop [] brts fuel m arr false pIdx = arr := by
  intro fuel
  induction fuel with
  | zero => intro m arr pIdx; rfl
  | succ n ih =>
      intro m arr pIdx
      rcases hm : arr.get? m with _ | l
      · unfold subLoop; rw [hm]
      · rw [subLoop_succ [] brts n m arr false pIdx l hm]
        have heq : subStep [] brts m arr false pIdx = (arr, false, pIdx) := by
          unfold subStep
          rw [hm]
          dsimp only
          rw [if_neg (by simp)]
          simp
        rw [heq]
        exact ih (m + 1) arr pIdx

theorem removeFirstColonAux_id (l : List Char) (h : ':' ∉ l) :
    removeFirstColonAux l = l := by
  induction l with
  | nil => rfl
  | cons c cs ih =>
      unfold removeFirstColonAux
      rw [if_neg (by intro he; exact h (he ▸ List.mem_cons_self c cs))]
      rw [ih (fun hm => h (List.mem_cons_of_mem c hm))]

theorem removeFirstColon_id (s : String) (h : ':' ∉ s.data) :
    removeFirstColon s = s := by
  rcases s with ⟨l⟩
  unfold removeFirstColon
  rw [removeFirstColonAux_id l h]

theorem takeWhile_all {p : Char → Bool} (l : List Char)
    (h : ∀ c ∈ l, p c = true) : l.takeWhile p = l := by
  induction l with
  | nil => rfl
  | cons c cs ih =>
      rw [List.takeWhile_cons]
      rw [h c (List.mem_cons_self c cs), if_pos rfl]
      rw [ih (fun d hd => h d (List.mem_cons_of_mem c hd))]

theorem string_data_append (a b : String) :
    (a ++ b).data = a.data ++ b.data := by
  rcases a with ⟨la⟩
  rcases b with ⟨lb⟩
  rfl

theorem string_mk_data (s : String) : (⟨s.data⟩ : String) = s := by
  rcases s with ⟨l⟩
  rfl

theorem strStarts_append_mono (G L p : String)
    (h : p.data.isPrefixOf L.data = true) :
    strStarts (G ++ L) (G ++ p) = true := by
  unfold strStarts
  rw [string_data_append, string_data_append]
  rw [List.isPrefixOf_iff_prefix] at h ⊢
  exact (List.prefix_append_right_inj G.data).mpr h

/-! ## Claim theorems -/

/-- C1 (counterexample): on `FOO:` followed by `.bar` the symbol stored in
`labels` carries the composed text `FOO.bar`, not the literal `.bar` the
claim asserts — concatenation happens at extraction time. -/
theorem c1_counterexample :
    (readDocument emptySymbolFile cdocLocal).labels.map Symbol.label
        = ["FOO", "FOO.bar"]
    ∧ (readDocument emptySymbolFile cdocLocal).labels.map Symbol.label
        ≠ ["FOO", ".bar"] := by decide

/-- C1 (amended): for every local-label, non-macro line, the symbol pushed
into `labels` carries the composed text — the nearest preceding global
label's name (or the string `undefined`) concatenated with the local text,
computed at extraction time inside `readDocument`'s per-line step. -/
theorem c1_composition_at_extraction (i : Nat) (line : AsmLine)
    (st : ReadState)
    (hlab : 0 < line.label.length)
    (hloc : isLocalText (removeFirstColon line.label) = true)
    (hmac : macroInstr line = false) :
    (processLine i line st).sf.labels =
      st.sf.labels ++
        [ Symbol.mk'
          (composedLabel st.lastLabel (removeFirstColon line.label))
          line.labelRange none i] :=
  processLine_local_label i line st hlab hloc hmac

theorem c1_composition_witness :
    (processLine 1 (mkLabelLine ".bar" (rangeAt 1 4))
        (readStateAt cdocLocal 1)).sf.labels =
      (readStateAt cdocLocal 1).sf.labels ++
        [ Symbol.mk'
          (composedLabel (readStateAt cdocLocal 1).lastLabel
            (removeFirstColon ".bar"))
          (rangeAt 1 4) none 1] :=
  c1_composition_at_extraction 1 (mkLabelLine ".bar" (rangeAt 1 4))
    (readStateAt cdocLocal 1) (by decide) (by decide) (by decide)

/-- C2 (counterexample): in `A:`, ` bsr A`, `B:`, ` bsr B`, `C:` the label
`C` ends with parent `B`, not `A`: the nested call target `B` replaced `A`
as the current parent although no return instruction intervened. -/
theorem c2_counterexample :
    (readDocument emptySymbolFile cdocNested).labels.map Symbol.parent
        = ["A", "B", "B"]
    ∧ (readDocument emptySymbolFile cdocNested).labels.map Symbol.parent
        ≠ ["A", "B", "A"] := by decide

/-- C2 (amended): whenever the boundary loop scans a label whose name is
in `subroutineNames`, that label becomes the new current parent — also
while already inside a subroutine — and the array is left untouched for
that iteration; return-recorded labels merely turn tracking off. -/
theorem c2_nested_target_resets_parent (subs : List String)
    (brts : List Symbol) (fuel m : Nat) (arr : List Symbol) (inSub : Bool)
    (pIdx : Option Nat) (l : Symbol) (hm : arr.get? m = some l)
    (hsub : subs.contains l.label = true) :
    subLoop subs brts (fuel + 1) m arr inSub pIdx =
      subLoop subs brts fuel (m + 1) arr (!memId brts l.id) (some m) := by
  rw [subLoop_succ subs brts fuel m arr inSub pIdx l hm,
    subStep_target subs brts m arr inSub pIdx l hm hsub]

theorem c2_nested_target_witness :
    subLoop ["A"] [] 1 0 [ Symbol.mk' "A" (rangeAt 0 2) none 0] true
        (some 5) =
      subLoop ["A"] [] 0 1 [ Symbol.mk' "A" (rangeAt 0 2) none 0]
        (!memId [] 0) (some 0) :=
  c2_nested_target_resets_parent ["A"] [] 0 0
    [ Symbol.mk' "A" (rangeAt 0 2) none 0] true (some 5)
    ( Symbol.mk' "A" (rangeAt 0 2) none 0) (by decide) (by decide)

/-- C3 (counterexample): in `FOO:`, `.loc`, ` dc.w 1` the recorded
data-definition owner is the global `FOO`, although the nearest preceding
label of any kind is the local `.loc` (stored as `FOO.loc`). -/
theorem c3_counterexample :
    (readDocument emptySymbolFile cdocDc).dcLabel.map Symbol.label = ["FOO"]
    ∧ (readDocument emptySymbolFile cdocDc).labels.map Symbol.label
        = ["FOO", "FOO.loc"]
    ∧ ("FOO" : String) ≠ "FOO.loc" := by decide

/-- C3 (amended): a data/storage/include-binary line appends to `dcLabel`
exactly the most recent global (non-local, non-macro) label, the line's
own label included — local labels are skipped, and with no preceding
global label nothing is recorded.  Subroutine boundaries play no role. -/
theorem c3_dc_owner_is_last_global (doc : List AsmLine) (i : Nat)
    (line : AsmLine)
    (hline : doc.get? i = some line) (hdc : dcHit line = true) :
    (readStateAt doc (i + 1)).sf.dcLabel =
      (readStateAt doc i).sf.dcLabel
        ++ (lastGlobalBefore doc (i + 1)).toList := by
  rw [readStateAt_succ doc i line hline]
  rw [processLine_dcLabel, if_pos hdc]
  congr 1
  rw [← readStateAt_succ doc i line hline, lastLabel_eq]

theorem c3_dc_owner_witness :
    (readStateAt cdocDc 3).sf.dcLabel =
      (readStateAt cdocDc 2).sf.dcLabel
        ++ (lastGlobalBefore cdocDc 3).toList :=
  c3_dc_owner_is_last_global cdocDc 2 (mkInstrLine "dc.w" "1" (rangeAt 2 6))
    (by decide) (by decide)

/-- C4 (counterexample): in `A:`, ` bsr A`, `B:`, ` bsr B`, `C:`, ` rts`
the label `A` is a call target, the only return-recorded label is `C`
(id 4), and `B` occurs before it — yet `B`'s parent is `B`, not `A`, and
`A`'s range is not widened to include `B`'s: a nested call-target label
between the entry and the return breaks the claimed re-parenting. -/
theorem c4_counterexample :
    (pass1 cdocNestedRts).sf.subroutines.contains "A" = true
    ∧ (pass1 cdocNestedRts).beforeRts.map Symbol.id = [4]
    ∧ (readDocument emptySymbolFile cdocNestedRts).labels.map Symbol.label
        = ["A", "B", "C"]
    ∧ (readDocument emptySymbolFile cdocNestedRts).labels.map Symbol.parent
        = ["A", "B", "B"]
    ∧ (readDocument emptySymbolFile cdocNestedRts).labels.map Symbol.parent
        ≠ ["A", "B", "A"]
    ∧ (((readDocument emptySymbolFile cdocNestedRts).labels.getD 0
          ( Symbol.mk' "" (rangeAt 0 0) none 99)).range.containsRange
        ((readDocument emptySymbolFile cdocNestedRts).labels.getD 1
          ( Symbol.mk' "" (rangeAt 0 0) none 99)).range) = false := by
  decide

/-- C4 (amended): if the label stream contains a call-target label `li` at
position `i` followed at position `j` by a label `lj`, with no *other*
call-target label in `(i, j]` (a nested call target would replace the
parent) and no label of `[i, j)` recorded before a return instruction,
then after `readDocument` the symbol at `j` has parent `li.label`, keeps
its own range, and `li`'s slot range has been widened to include it. -/
theorem c4_subroutine_parent (sf : SymbolFile) (doc : List AsmLine)
    (i j : Nat) (li lj : Symbol)
    (hi : (pass1 doc).sf.labels.get? i = some li)
    (hj : (pass1 doc).sf.labels.get? j = some lj)
    (hij : i < j)
    (hsub : (pass1 doc).sf.subroutines.contains li.label = true)
    (hmid : ∀ k lk, i < k → k ≤ j →
      (pass1 doc).sf.labels.get? k = some lk →
      (pass1 doc).sf.subroutines.contains lk.label = false)
    (hbr : ∀ k lk, i ≤ k → k < j →
      (pass1 doc).sf.labels.get? k = some lk →
      memId (pass1 doc).beforeRts lk.id = false) :
    ∃ li' lj', (readDocument sf doc).labels.get? i = some li'
      ∧ (readDocument sf doc).labels.get? j = some lj'
      ∧ lj'.parent = li.label
      ∧ lj'.range = lj.range
      ∧ li'.range.containsRange lj.range = true := by
  rw [readDocument_labels]
  unfold boundaryPass
  obtain ⟨li'', lj', h1, h2, h3, h4⟩ := subLoop_before
    (pass1 doc).sf.subroutines (pass1 doc).beforeRts i j li.label lj hij hsub
    (pass1 doc).sf.labels.length 0 (pass1 doc).sf.labels false none
    (Nat.zero_le i) (by omega) (by intro p hp; cases hp)
    ⟨li, hi, rfl⟩ hj hmid hbr
  exact ⟨li'', lj', h1, h2, by rw [h3], by rw [h3], h4⟩

theorem c4_subroutine_witness :
    ∃ li' lj',
      (readDocument emptySymbolFile cdocSub).labels.get? 0 = some li'
      ∧ (readDocument emptySymbolFile cdocSub).labels.get? 1 = some lj'
      ∧ lj'.parent = "SUB"
      ∧ lj'.range = rangeAt 2 7
      ∧ li'.range.containsRange (rangeAt 2 7) = true := by
  have h := c4_subroutine_parent emptySymbolFile cdocSub 0 1
    ( Symbol.mk' "SUB" (rangeAt 0 4) none 0)
    ( Symbol.mk' "label2" (rangeAt 2 7) none 2)
    (by decide) (by decide) (by decide) (by decide)
    (by intro k lk hk1 hk2 hk3
        have hk : k = 1 := by omega
        subst hk
        rw [(by decide : (pass1 cdocSub).sf.labels.get? 1 =
          some ( Symbol.mk' "label2" (rangeAt 2 7) none 2))] at hk3
        injection hk3 with he
        subst he
        decide)
    (by intro k lk hk1 hk2 hk3
        have hk : k = 0 := by omega
        subst hk
        rw [(by decide : (pass1 cdocSub).sf.labels.get? 0 =
          some ( Symbol.mk' "SUB" (rangeAt 0 4) none 0))] at hk3
        injection hk3 with he
        subst he
        decide)
  exact h

/-- C5: `readDocument` clears every accumulated field before repopulating,
so a second call on the same unchanged document reproduces the same
`SymbolFile` contents — labels, variables and macros included. -/
theorem c5_readDocument_idempotent (sf : SymbolFile) (doc : List AsmLine) :
    readDocument (readDocument sf doc) doc = readDocument sf doc := rfl

/-- C7 (counterexample): `incdir` with operand `a"b` yields `ab` — the
code removes every quote (`replace(/"/g, '')`), while stripping only the
surrounding quotes would leave `a"b`. -/
theorem c7_counterexample :
    (readDocument emptySymbolFile cdocIncdir).includeDir = "ab"
    ∧ stripSurroundingQuotes "a\"b" = "a\"b"
    ∧ ("ab" : String) ≠ "a\"b" := by decide

/-- C7 (amended): an `incdir` line sets `includeDir` to its operand with
every double quote removed — the last such line wins — and an `include`
line registers the fully quote-stripped operand as a symbol in both
`includedFiles` and `definedSymbols`. -/
theorem c7_include_directives (sf : SymbolFile) (doc : List AsmLine)
    (i : Nat) (line : AsmLine) (hline : doc.get? i = some line) :
    (incdirHit line = true →
      (∀ j line', i < j → doc.get? j = some line' →
        incdirHit line' = false) →
      (readDocument sf doc).includeDir = removeQuotes line.data)
    ∧ (includeHit line = true →
        incSymbolOf i line ∈ (readDocument sf doc).includedFiles
        ∧ incSymbolOf i line ∈ (readDocument sf doc).definedSymbols) := by
  have hlt : i < doc.length := get?_lt_length _ _ _ hline
  constructor
  · intro hdir hlast
    rw [readDocument_includeDir, pass1_decompose doc (i + 1) (by omega)]
    rw [readLoop_includeDir_stable _ (i + 1) _ ?hnone]
    case hnone =>
      intro k line' hk
      have hk' : doc.get? (i + 1 + k) = some line' := by
        rw [← List.get?_drop]; exact hk
      exact hlast (i + 1 + k) line' (by omega) hk'
    rw [readStateAt_succ doc i line hline, processLine_includeDir,
      if_pos hdir]
  · intro hinc
    have hmem1 : incSymbolOf i line
        ∈ (readStateAt doc (i + 1)).sf.includedFiles := by
      rw [readStateAt_succ doc i line hline, processLine_includedFiles,
        if_pos hinc]
      simp
    have hmem2 : incSymbolOf i line
        ∈ (readStateAt doc (i + 1)).sf.definedSymbols := by
      rw [readStateAt_succ doc i line hline]
      unfold processLine
      rw [directiveStep_definedSymbols, if_pos hinc]
      simp
    constructor
    · rw [readDocument_includedFiles, pass1_decompose doc (i + 1) (by omega)]
      exact (readLoop_ext _ _ _).2.2.1.subset hmem1
    · rw [readDocument_definedSymbols, pass1_decompose doc (i + 1) (by omega)]
      exact (readLoop_ext _ _ _).2.2.2.1.subset hmem2

theorem c7_include_witness :
    (readDocument emptySymbolFile cdocInc).includeDir
        = removeQuotes "\"dir\""
    ∧ incSymbolOf 1 (mkInstrLine "include" "\"file.i\"" (rangeAt 1 16))
        ∈ (readDocument emptySymbolFile cdocInc).includedFiles
    ∧ incSymbolOf 1 (mkInstrLine "include" "\"file.i\"" (rangeAt 1 16))
        ∈ (readDocument emptySymbolFile cdocInc).definedSymbols := by
  have h0 := c7_include_directives emptySymbolFile cdocInc 0
    (mkInstrLine "incdir" "\"dir\"" (rangeAt 0 12)) (by decide)
  have h1 := c7_include_directives emptySymbolFile cdocInc 1
    (mkInstrLine "include" "\"file.i\"" (rangeAt 1 16)) (by decide)
  have hlast : ∀ j line', 0 < j → cdocInc.get? j = some line' →
      incdirHit line' = false := by
    intro j line' hj hget
    have hj2 : j = 1 ∨ 2 ≤ j := by omega
    rcases hj2 with rfl | hj2
    · rw [(by decide : cdocInc.get? 1 =
        some (mkInstrLine "include" "\"file.i\"" (rangeAt 1 16)))] at hget
      injection hget with he
      subst he
      decide
    · have hlen : cdocInc.length = 2 := by decide
      rw [List.get?_eq_none.mpr (by omega)] at hget
      cases hget
  obtain ⟨hA, hB⟩ := h1.2 (by decide)
  exact ⟨h0.1 (by decide) hlast, hA, hB⟩

/-- C8: a labelled line with a `macro`-starting instruction is classified
as a macro and leaves `lastLabel` unchanged; a labelled line otherwise is
classified as a label and updates `lastLabel` exactly when the label is
not local; an unlabelled `macro` line records the data field's content as
a macro symbol. -/
theorem c8_label_classification (i : Nat) (line : AsmLine)
    (st : ReadState) :
    (0 < line.label.length → macroInstr line = true →
      (processLine i line st).sf.macros
          = st.sf.macros ++ [labelSymbolOf st.lastLabel i line]
        ∧ (processLine i line st).sf.labels = st.sf.labels
        ∧ (processLine i line st).lastLabel = st.lastLabel)
    ∧ (0 < line.label.length → macroInstr line = false →
      (processLine i line st).sf.labels
          = st.sf.labels ++ [labelSymbolOf st.lastLabel i line]
        ∧ (processLine i line st).sf.macros = st.sf.macros
        ∧ (processLine i line st).lastLabel =
            (if isLocalText (removeFirstColon line.label) = true
             then st.lastLabel
             else some (labelSymbolOf st.lastLabel i line)))
    ∧ (line.label.length = 0 → macroInstr line = true →
      (processLine i line st).sf.macros
          = st.sf.macros ++ [ Symbol.mk' line.data line.dataRange none i]) := by
  refine ⟨?_, ?_, ?_⟩
  · intro h1 h2
    refine ⟨?_, ?_, ?_⟩
    · rw [processLine_macros, if_pos ⟨h1, h2⟩]
    · rw [processLine_labels, if_neg (by simp [h2])]
    · rw [processLine_lastLabel, if_neg (by simp [createsGlobal, h2])]
  · intro h1 h2
    refine ⟨?_, ?_, ?_⟩
    · rw [processLine_labels, if_pos ⟨h1, h2⟩]
    · rw [processLine_macros, if_neg (by simp [h2]),
        if_neg (by simp [h2])]
    · rw [processLine_lastLabel]
      by_cases hloc : isLocalText (removeFirstColon line.label) = true
      · rw [if_neg (by simp [createsGlobal, hloc]), if_pos hloc]
      · rw [if_pos (by simp [createsGlobal, h1, h2]; simp_all),
          if_neg hloc]
        simp only [globalSymbolOf, labelSymbolOf]
        rw [if_neg hloc]
  · intro h1 h2
    rw [processLine_macros, if_neg (by simp [h1]), if_pos ⟨h1, h2⟩]

theorem c8_classification_witness :
    ((processLine 0 cmacLine ⟨emptySymbolFile, none, []⟩).sf.macros
        = emptySymbolFile.macros ++ [labelSymbolOf none 0 cmacLine]
      ∧ (processLine 0 cmacLine ⟨emptySymbolFile, none, []⟩).sf.labels
          = emptySymbolFile.labels
      ∧ (processLine 0 cmacLine ⟨emptySymbolFile, none, []⟩).lastLabel
          = none)
    ∧ ((processLine 0 (mkLabelLine "FOO:" (rangeAt 0 4))
          ⟨emptySymbolFile, none, []⟩).sf.labels
        = emptySymbolFile.labels
            ++ [labelSymbolOf none 0 (mkLabelLine "FOO:" (rangeAt 0 4))]
      ∧ (processLine 0 (mkLabelLine "FOO:" (rangeAt 0 4))
          ⟨emptySymbolFile, none, []⟩).sf.macros = emptySymbolFile.macros
      ∧ (processLine 0 (mkLabelLine "FOO:" (rangeAt 0 4))
          ⟨emptySymbolFile, none, []⟩).lastLabel =
          (if isLocalText (removeFirstColon "FOO:") = true
           then none
           else some (labelSymbolOf none 0
             (mkLabelLine "FOO:" (rangeAt 0 4)))))
    ∧ (processLine 0 cmacDataLine ⟨emptySymbolFile, none, []⟩).sf.macros
        = emptySymbolFile.macros
            ++ [ Symbol.mk' "OTHERMAC" (rangeAt 0 15) none 0] :=
  ⟨(c8_label_classification 0 cmacLine ⟨emptySymbolFile, none, []⟩).1
      (by decide) (by decide),
   (c8_label_classification 0 (mkLabelLine "FOO:" (rangeAt 0 4))
      ⟨emptySymbolFile, none, []⟩).2.1 (by decide) (by decide),
   (c8_label_classification 0 cmacDataLine
      ⟨emptySymbolFile, none, []⟩).2.2 (by decide) (by decide)⟩

/-- C9: a local label appearing before any global label is still stored,
and its label text is the string `undefined` concatenated with the local
text — the JavaScript rendering of `undefined + ".bar"`. -/
theorem c9_undefined_prefix (sf : SymbolFile) (doc : List AsmLine)
    (i : Nat) (line : AsmLine)
    (hline : doc.get? i = some line)
    (hnog : lastGlobalBefore doc i = none)
    (hlab : 0 < line.label.length)
    (hloc : isLocalText (removeFirstColon line.label) = true)
    (hmac : macroInstr line = false) :
    ∃ s ∈ (readDocument sf doc).labels,
      s.id = i ∧ s.label = "undefined" ++ removeFirstColon line.label := by
  have hlt : i < doc.length := get?_lt_length _ _ _ hline
  have hlast : (readStateAt doc i).lastLabel = none := by
    rw [lastLabel_eq]; exact hnog
  have hstep : (readStateAt doc (i + 1)).sf.labels =
      (readStateAt doc i).sf.labels ++
        [ Symbol.mk' ("undefined" ++ removeFirstColon line.label)
          line.labelRange none i] := by
    rw [readStateAt_succ doc i line hline,
      processLine_local_label i line _ hlab hloc hmac, hlast]
    rfl
  have hmem1 : Symbol.mk' ("undefined" ++ removeFirstColon line.label)
      line.labelRange none i ∈ (readStateAt doc (i + 1)).sf.labels := by
    rw [hstep]; simp
  have hmem2 : Symbol.mk' ("undefined" ++ removeFirstColon line.label)
      line.labelRange none i ∈ (pass1 doc).sf.labels := by
    rw [pass1_decompose doc (i + 1) (by omega)]
    exact (readLoop_ext _ _ _).1.subset hmem1
  obtain ⟨k, hk⟩ := List.get?_of_mem hmem2
  obtain ⟨s', hs', hl', hid', _⟩ := subLoop_slot (pass1 doc).sf.subroutines
    (pass1 doc).beforeRts (pass1 doc).sf.labels.length 0
    (pass1 doc).sf.labels false none k _ hk
  refine ⟨s', ?_, hid', hl'⟩
  rw [readDocument_labels]
  unfold boundaryPass
  exact List.get?_mem hs'

theorem c9_undefined_witness :
    ∃ s ∈ (readDocument emptySymbolFile cdocOrphan).labels,
      s.id = 0 ∧ s.label = "undefined" ++ removeFirstColon ".bar" :=
  c9_undefined_prefix emptySymbolFile cdocOrphan 0
    (mkLabelLine ".bar" (rangeAt 0 4)) (by decide) (by decide) (by decide)
    (by decide) (by decide)

/-- C10: every entry of `labelsBeforeRts` was the running `lastLabel` at
some return-instruction line, hence a global-label creation at its own
line; consequently no local label's identity ever appears in the set, and
one boundary-loop step turns tracking off exactly on identity membership
(`inSub' = (inSub ∨ target) ∧ ¬ recorded`). -/
theorem c10_tracking_end_identity (doc : List AsmLine) :
    (∀ s ∈ (pass1 doc).beforeRts,
      ∃ j line, doc.get? j = some line ∧ rtsHit line = true
        ∧ (readStateAt doc (j + 1)).lastLabel = some s)
    ∧ (∀ s ∈ (pass1 doc).beforeRts, globalCreationAt doc s.id = some s)
    ∧ (∀ i line, doc.get? i = some line → localLabelLine line = true →
        memId (pass1 doc).beforeRts i = false)
    ∧ (∀ (subs : List String) (b : List Symbol) (m : Nat)
        (arr : List Symbol) (inSub : Bool) (pIdx : Option Nat) (l : Symbol),
        arr.get? m = some l →
        (subStep subs b m arr inSub pIdx).2.1 =
          ((inSub || subs.contains l.label) && !memId b l.id)) := by
  have hrec : ∀ s ∈ (pass1 doc).beforeRts,
      ∃ j line, doc.get? j = some line ∧ rtsHit line = true
        ∧ (readStateAt doc (j + 1)).lastLabel = some s := by
    intro s hs
    rw [← readStateAt_stop doc doc.length (Nat.le_refl _)] at hs
    exact beforeRts_recorded doc doc.length s hs
  have hcreate : ∀ s ∈ (pass1 doc).beforeRts,
      globalCreationAt doc s.id = some s := by
    intro s hs
    obtain ⟨j, line, _, _, hlast⟩ := hrec s hs
    rw [lastLabel_eq] at hlast
    exact lastGlobalBefore_creation doc (j + 1) s hlast
  refine ⟨hrec, hcreate, ?_, ?_⟩
  · intro i line hl hloc
    cases hmem : memId (pass1 doc).beforeRts i
    · rfl
    · exfalso
      unfold memId at hmem
      obtain ⟨s, hs, hsid⟩ := List.any_eq_true.mp hmem
      have hsid' : s.id = i := by simpa using hsid
      have hc := hcreate s hs
      rw [hsid'] at hc
      unfold globalCreationAt at hc
      rw [hl] at hc
      dsimp only at hc
      split at hc
      · next hcg =>
          simp only [localLabelLine, Bool.and_eq_true, decide_eq_true_eq]
            at hloc
          simp [createsGlobal, hloc.2] at hcg
      · cases hc
  · intro subs b m arr inSub pIdx l hm
    unfold subStep
    rw [hm]
    dsimp only
    by_cases hc : subs.contains l.label = true
    · rw [if_pos hc, hc]
      cases hmem : memId b l.id <;> simp [hmem]
    · have hc' : subs.contains l.label = false := by
        cases h : subs.contains l.label
        · rfl
        · exact absurd h hc
      rw [if_neg hc, hc']
      cases hin : inSub
      · simp only [Bool.false_eq_true, if_false]
        cases hmem : memId b l.id <;> simp [hmem]
      · simp only [if_true]
        rcases pIdx with _ | p
        · cases hmem : memId b l.id <;> simp [hmem]
        · rcases hp : arr.get? p with _ | par <;>
            rw [List.get?_eq_getElem?] at hp <;>
            cases hmem : memId b l.id <;> simp [hmem, hp]

theorem c10_tracking_witness :
    (∃ j line, cdocRts.get? j = some line ∧ rtsHit line = true
      ∧ (readStateAt cdocRts (j + 1)).lastLabel =
          some ( Symbol.mk' "FOO" (rangeAt 0 4) none 0))
    ∧ globalCreationAt cdocRts
        ( Symbol.mk' "FOO" (rangeAt 0 4) none 0).id
        = some ( Symbol.mk' "FOO" (rangeAt 0 4) none 0)
    ∧ memId (pass1 cdocRts).beforeRts 1 = false
    ∧ (subStep ["A"] [] 0 [ Symbol.mk' "A" (rangeAt 0 2) none 0] false
        none).2.1 =
      ((false || (["A"].contains
          ( Symbol.mk' "A" (rangeAt 0 2) none 0).label))
        && !memId [] ( Symbol.mk' "A" (rangeAt 0 2) none 0).id) := by
  have h := c10_tracking_end_identity cdocRts
  exact ⟨h.1 ( Symbol.mk' "FOO" (rangeAt 0 4) none 0) (by decide),
    h.2.1 ( Symbol.mk' "FOO" (rangeAt 0 4) none 0) (by decide),
    h.2.2.1 1 (mkLabelLine ".bar" (rangeAt 1 4)) (by decide) (by decide),
    h.2.2.2 ["A"] [] 0 [ Symbol.mk' "A" (rangeAt 0 2) none 0] false none
      ( Symbol.mk' "A" (rangeAt 0 2) none 0) (by decide)⟩

/-- C6: given a global label line whose text `G` is made of word
characters, followed by a local label line `L` (leading dot), the
completion layer's upward scan for `/^(\w+)\b/` produces the prefix `G`,
prepends it to the typed partial `p`, and the label lookup then finds the
local label's symbol under the composed name `G ++ L`. -/
theorem c6_local_label_lookup (sf : SymbolFile) (G L p : String)
    (r0 r1 : Range)
    (hG0 : G.data ≠ [])
    (hGw : ∀ c ∈ G.data, isWordChar c = true)
    (hGc : ':' ∉ G.data)
    (hLloc : isLocalText L = true)
    (hLc : ':' ∉ L.data)
    (hp : p.data.isPrefixOf L.data = true) :
    ∃ s ∈ findLabelStartingWith
        (readDocument sf [mkLabelLine G r0, mkLabelLine L r1])
        (labelPrefixFrom [G, " " ++ L] 1 ++ p),
      s.label = G ++ L ∧ s.id = 1 := by
  have hGlen : 0 < G.length := by
    show 0 < G.data.length
    rcases hGd : G.data with _ | ⟨c, cs⟩
    · exact absurd hGd hG0
    · simp
  have hL0 : L.data ≠ [] := by
    unfold isLocalText at hLloc
    rcases hLd : L.data with _ | ⟨c, cs⟩
    · rw [hLd] at hLloc; cases hLloc
    · simp
  have hLlen : 0 < L.length := by
    show 0 < L.data.length
    rcases hLd : L.data with _ | ⟨c, cs⟩
    · exact absurd hLd hL0
    · simp
  have hGr : removeFirstColon G = G := removeFirstColon_id G hGc
  have hLr : removeFirstColon L = L := removeFirstColon_id L hLc
  have hGnl : isLocalText G = false := by
    rcases hGd : G.data with _ | ⟨c, cs⟩
    · exact absurd hGd hG0
    · have hw : isWordChar c = true :=
        hGw c (hGd ▸ List.mem_cons_self c cs)
      by_cases hcd : c = '.'
      · subst hcd
        exact absurd hw (by decide)
      · unfold isLocalText
        rw [hGd]
        simp [hcd]
  have hmac0 : macroInstr (mkLabelLine G r0) = false := rfl
  have hmac1 : macroInstr (mkLabelLine L r1) = false := rfl
  have hcg0 : createsGlobal (mkLabelLine G r0) = true := by
    show (decide (0 < G.length)
      && !isLocalText (removeFirstColon G)
      && !macroInstr (mkLabelLine G r0)) = true
    rw [hmac0, hGr, hGnl]
    simp [hGlen]
  have hlab0 : (processLine 0 (mkLabelLine G r0)
      ⟨emptySymbolFile, none, []⟩).sf.labels = [ Symbol.mk' G r0 none 0] := by
    rw [processLine_labels, if_pos ⟨hGlen, hmac0⟩]
    show emptySymbolFile.labels
      ++ [ Symbol.mk'
            (if isLocalText (removeFirstColon G) = true
             then composedLabel none (removeFirstColon G)
             else removeFirstColon G) r0 none 0]
      = [ Symbol.mk' G r0 none 0]
    rw [hGr, hGnl]
    rfl
  have hlast0 : (processLine 0 (mkLabelLine G r0)
      ⟨emptySymbolFile, none, []⟩).lastLabel
        = some ( Symbol.mk' G r0 none 0) := by
    rw [processLine_lastLabel, if_pos hcg0]
    show some ( Symbol.mk' (removeFirstColon G) r0 none 0) = _
    rw [hGr]
  have hlab1 : (pass1 [mkLabelLine G r0, mkLabelLine L r1]).sf.labels
      = [ Symbol.mk' G r0 none 0, Symbol.mk' (G ++ L) r1 none 1] := by
    show (processLine 1 (mkLabelLine L r1) (processLine 0 (mkLabelLine G r0)
      ⟨emptySymbolFile, none, []⟩)).sf.labels = _
    rw [processLine_local_label 1 (mkLabelLine L r1) _ hLlen
      (by show isLocalText (removeFirstColon L) = true
          rw [hLr]; exact hLloc) hmac1]
    rw [hlab0, hlast0]
    show _ ++ [ Symbol.mk' (composedLabel _ (removeFirstColon L)) r1 none 1]
      = _
    rw [hLr]
    rfl
  have hb0 : bsrHit (mkLabelLine G r0) = false := rfl
  have hb1 : bsrHit (mkLabelLine L r1) = false := rfl
  have hsubs : (pass1 [mkLabelLine G r0, mkLabelLine L r1]).sf.subroutines
      = [] := by
    show (processLine 1 (mkLabelLine L r1) (processLine 0 (mkLabelLine G r0)
      ⟨emptySymbolFile, none, []⟩)).sf.subroutines = []
    rw [processLine_subroutines, if_neg (by simp [hb1]),
      processLine_subroutines, if_neg (by simp [hb0])]
    rfl
  have hfinal : (readDocument sf [mkLabelLine G r0, mkLabelLine L r1]).labels
      = [ Symbol.mk' G r0 none 0, Symbol.mk' (G ++ L) r1 none 1] := by
    rw [readDocument_labels]
    unfold boundaryPass
    rw [hsubs, hlab1]
    exact subLoop_no_subs _ _ 0 _ none
  have hdata : (" " ++ L).data = ' ' :: L.data := by
    rw [string_data_append]
    rfl
  have hlwr1 : leadingWordRun (" " ++ L) = none := by
    unfold leadingWordRun
    rw [hdata]
    dsimp only
    rw [if_neg (by decide)]
  have hlwrG : leadingWordRun G = some G := by
    unfold leadingWordRun
    rcases hGd : G.data with _ | ⟨c, cs⟩
    · exact absurd hGd hG0
    · dsimp only
      rw [if_pos (hGw c (by rw [hGd]; exact List.mem_cons_self c cs))]
      rw [← hGd, takeWhile_all G.data hGw, string_mk_data]
  have hpfx : labelPrefixFrom [G, " " ++ L] 1 = G := by
    have h1 : labelPrefixFrom [G, " " ++ L] 1 =
        match leadingWordRun (" " ++ L) with
        | some w => w
        | none => labelPrefixFrom [G, " " ++ L] 0 := rfl
    rw [h1, hlwr1]
    show labelPrefixFrom [G, " " ++ L] 0 = G
    have h0 : labelPrefixFrom [G, " " ++ L] 0 =
        (leadingWordRun G).getD "" := rfl
    rw [h0, hlwrG]
    rfl
  refine ⟨Symbol.mk' (G ++ L) r1 none 1, ?_, rfl, rfl⟩
  rw [hpfx]
  unfold findLabelStartingWith
  rw [hfinal]
  apply List.mem_filter.mpr
  refine ⟨by simp, ?_⟩
  exact strStarts_append_mono G L p hp

theorem c6_local_label_witness :
    ∃ s ∈ findLabelStartingWith
        (readDocument emptySymbolFile
          [mkLabelLine "FOO" (rangeAt 0 3), mkLabelLine ".bar" (rangeAt 1 4)])
        (labelPrefixFrom ["FOO", " " ++ ".bar"] 1 ++ ".b"),
      s.label = "FOO" ++ ".bar" ∧ s.id = 1 :=
  c6_local_label_lookup emptySymbolFile "FOO" ".bar" ".b"
    (rangeAt 0 3) (rangeAt 1 4) (by decide) (by decide) (by decide)
    (by decide) (by decide) (by decide)

end AmigaAsm
